import Mathlib

/-!
Shallow embedding of the cache-eviction engines of the repository
(LruCache, FifoCache, LfuCache, LruKCache).  Each C++ class is modelled as a
Lean structure holding the same fields; the `unordered_map` indexes are
modelled as association lists, the intrusive linked lists as Lean lists
(head of the list = head of the C++ list), and the steady-clock timestamps
of the LRU-K engine as a strictly increasing logical counter (one tick per
`getCurrentTime` call).  All operations are translated method by method from
`src/src/*.cpp`; mutation becomes explicit state passing.
-/

set_option maxHeartbeats 1000000

/-! ### Association-list primitives (model of `std::unordered_map`) -/

/-- Lookup in an association list, first match wins (model of `map.find`). -/
def alook {K V : Type} [DecidableEq K] : List (K × V) → K → Option V
  | [], _ => none
  | (k', v) :: t, k => if k = k' then some v else alook t k

/-- Insert-or-assign (model of `map[key] = value`): replace the first binding
in place when present, append when absent. -/
def aset {K V : Type} [DecidableEq K] : List (K × V) → K → V → List (K × V)
  | [], k, v => [(k, v)]
  | (k', v') :: t, k, v => if k = k' then (k', v) :: t else (k', v') :: aset t k v

/-- Erase the first binding of a key (model of `map.erase(key)`). -/
def aerase {K V : Type} [DecidableEq K] : List (K × V) → K → List (K × V)
  | [], _ => []
  | (k', v') :: t, k => if k = k' then t else (k', v') :: aerase t k

/-- The keys of an association list. -/
def akeys {K V : Type} (l : List (K × V)) : List K := l.map Prod.fst

/-- Remove the first occurrence of an element from a list (model of unlinking
one node from an intrusive list). -/
def lrem {K : Type} [DecidableEq K] : List K → K → List K
  | [], _ => []
  | k' :: t, k => if k' = k then t else k' :: lrem t k

/-- First-wins argmin over a list, mirroring the C++ scan loops of
`LruKCache::findVictimKey` (strict `<` against the current best, so the
earliest element in iteration order wins ties). -/
def argminBy {A : Type} (f : A → Nat) : List A → Option A :=
  List.foldl
    (fun best a =>
      match best with
      | none => some a
      | some b => if f a < f b then some a else best)
    none

/-! ### The operation alphabet shared by every engine -/

/-- A single public-contract operation (`size`, `capacity`, `empty` are pure
queries and change no state, so sequences over these four constructors cover
all state evolutions). -/
inductive Op (K V : Type) where
  | get (k : K)
  | put (k : K) (v : V)
  | contains (k : K)
  | clear
deriving DecidableEq

/-! ### LRU engine (`src/src/LruCache.cpp`)

The node map `cache_` and the doubly linked recency list are kept in exact
lockstep by the C++ code (every map entry points to the unique list node of
that key), so the pair is embedded as one association list `order` in
recency order, head = most recently used; `size_` stays a separate counter
exactly as in the source. -/

structure LruSt (K V : Type) where
  capacity_ : Nat
  size_ : Nat
  order : List (K × V)
deriving DecidableEq

/-- `LruCache::LruCache(capacity)` (the capacity > 0 check is carried as a
hypothesis on theorems). -/
def lruInit {K V : Type} (c : Nat) : LruSt K V := ⟨c, 0, []⟩

/-- `LruCache::get`: on a hit, `moveToHead` (unlink + relink at head) and
return the node's value; on a miss, throw leaving the state unchanged. -/
def lruGet {K V : Type} [DecidableEq K] (s : LruSt K V) (k : K) :
    Option V × LruSt K V :=
  match alook s.order k with
  | none => (none, s)
  | some v => (some v, { s with order := (k, v) :: aerase s.order k })

/-- `LruCache::put`. -/
def lruPut {K V : Type} [DecidableEq K] (s : LruSt K V) (k : K) (v : V) :
    LruSt K V :=
  match alook s.order k with
  | some _ => { s with order := (k, v) :: aerase s.order k }
  | none =>
    if s.capacity_ ≤ s.size_ then
      { s with order := (k, v) :: s.order.dropLast, size_ := s.size_ - 1 + 1 }
    else
      { s with order := (k, v) :: s.order, size_ := s.size_ + 1 }

/-- `LruCache::contains`. -/
def lruContains {K V : Type} [DecidableEq K] (s : LruSt K V) (k : K) : Bool :=
  (alook s.order k).isSome

/-- `LruCache::clear`. -/
def lruClear {K V : Type} (s : LruSt K V) : LruSt K V :=
  { s with order := [], size_ := 0 }

/-- `LruCache::size`. -/
def lruSize {K V : Type} (s : LruSt K V) : Nat := s.size_

/-- One public operation on the LRU engine. -/
def lruStep {K V : Type} [DecidableEq K] (s : LruSt K V) : Op K V → LruSt K V
  | .get k => (lruGet s k).2
  | .put k v => lruPut s k v
  | .contains _ => s
  | .clear => lruClear s

/-- Run a sequence of operations on the LRU engine. -/
def lruRun {K V : Type} [DecidableEq K] (s : LruSt K V) (ops : List (Op K V)) :
    LruSt K V :=
  ops.foldl lruStep s

/-! ### FIFO engine (`src/src/FifoCache.cpp`)

Singly linked insertion queue, head = oldest; same collapsing of map plus
list into one association list, `size_` kept separate as in the source. -/

structure FifoSt (K V : Type) where
  capacity_ : Nat
  size_ : Nat
  order : List (K × V)
deriving DecidableEq

/-- `FifoCache::FifoCache(capacity)`. -/
def fifoInit {K V : Type} (c : Nat) : FifoSt K V := ⟨c, 0, []⟩

/-- `FifoCache::get`: pure lookup, never moves the node. -/
def fifoGet {K V : Type} [DecidableEq K] (s : FifoSt K V) (k : K) :
    Option V × FifoSt K V :=
  (alook s.order k, s)

/-- `FifoCache::put`: update in place on a hit; otherwise evict the head when
full (`removeHead` returns null on an empty list and then nothing is erased),
then append at the tail. -/
def fifoPut {K V : Type} [DecidableEq K] (s : FifoSt K V) (k : K) (v : V) :
    FifoSt K V :=
  match alook s.order k with
  | some _ => { s with order := aset s.order k v }
  | none =>
    if s.capacity_ ≤ s.size_ then
      match s.order with
      | [] => { s with order := [(k, v)], size_ := s.size_ + 1 }
      | _ :: t => { s with order := t ++ [(k, v)], size_ := s.size_ - 1 + 1 }
    else
      { s with order := s.order ++ [(k, v)], size_ := s.size_ + 1 }

/-- `FifoCache::contains`. -/
def fifoContains {K V : Type} [DecidableEq K] (s : FifoSt K V) (k : K) : Bool :=
  (alook s.order k).isSome

/-- `FifoCache::clear`. -/
def fifoClear {K V : Type} (s : FifoSt K V) : FifoSt K V :=
  { s with order := [], size_ := 0 }

/-- `FifoCache::size`. -/
def fifoSize {K V : Type} (s : FifoSt K V) : Nat := s.size_

/-- One public operation on the FIFO engine. -/
def fifoStep {K V : Type} [DecidableEq K] (s : FifoSt K V) : Op K V → FifoSt K V
  | .get _ => s
  | .put k v => fifoPut s k v
  | .contains _ => s
  | .clear => fifoClear s

/-- Run a sequence of operations on the FIFO engine. -/
def fifoRun {K V : Type} [DecidableEq K] (s : FifoSt K V)
    (ops : List (Op K V)) : FifoSt K V :=
  ops.foldl fifoStep s

/-! ### LFU engine (`src/src/LfuCache.cpp`)

The C++ node stores key, value and frequency once and is shared between the
index `cache_` and the doubly linked list of its current frequency bucket.
The embedding keeps the index as an association list `cache_ : key ↦ (value,
frequency)` and the bucket map `frequency_buckets_` as an association list
`buckets : frequency ↦ list of keys` in bucket order, head of the Lean list
= head of the bucket (most recently inserted into that bucket).  Empty
buckets stay in the map, as in the source. -/

structure LfuSt (K V : Type) where
  capacity_ : Nat
  min_frequency_ : Nat
  cache_ : List (K × V × Nat)
  buckets : List (Nat × List K)
deriving DecidableEq

/-- `LfuCache::LfuCache(capacity)`. -/
def lfuInit {K V : Type} (c : Nat) : LfuSt K V := ⟨c, 1, [], []⟩

/-- `getOrCreateBucket` followed by `FrequencyBucket::addToHead`. -/
def addToBucketHead {K : Type} [DecidableEq K] (bs : List (Nat × List K))
    (f : Nat) (k : K) : List (Nat × List K) :=
  match alook bs f with
  | some l => aset bs f (k :: l)
  | none => bs ++ [(f, [k])]

/-- `LfuCache::updateFrequency`: unlink the node from its old bucket when
that bucket is present (bumping `min_frequency_` when the old bucket emptied
and carried the minimum), bump the node's frequency, insert at the head of
the new bucket.  `v` is the node's current value, `f` its old frequency. -/
def lfuUpdateFrequency {K V : Type} [DecidableEq K] (s : LfuSt K V) (k : K)
    (v : V) (f : Nat) : LfuSt K V :=
  let s1 :=
    match alook s.buckets f with
    | some l =>
      let l' := lrem l k
      let m' := if l' = [] ∧ f = s.min_frequency_ then s.min_frequency_ + 1
                else s.min_frequency_
      { s with buckets := aset s.buckets f l', min_frequency_ := m' }
    | none => s
  { s1 with
    cache_ := aset s1.cache_ k (v, f + 1),
    buckets := addToBucketHead s1.buckets (f + 1) k }

/-- `LfuCache::evictLFU`: tail of the `min_frequency_` bucket (null when the
bucket is absent or empty); the node is unlinked from its bucket here, the
index erase happens back in `put`. -/
def lfuEvictLFU {K V : Type} [DecidableEq K] (s : LfuSt K V) :
    Option K × LfuSt K V :=
  match alook s.buckets s.min_frequency_ with
  | none => (none, s)
  | some l =>
    match l.getLast? with
    | none => (none, s)
    | some j =>
      (some j, { s with buckets := aset s.buckets s.min_frequency_ l.dropLast })

/-- `LfuCache::get`: on a hit, `updateFrequency` then return the value; on a
miss, throw leaving the state unchanged. -/
def lfuGet {K V : Type} [DecidableEq K] (s : LfuSt K V) (k : K) :
    Option V × LfuSt K V :=
  match alook s.cache_ k with
  | none => (none, s)
  | some (v, f) => (some v, lfuUpdateFrequency s k v f)

/-- `LfuCache::put`. -/
def lfuPut {K V : Type} [DecidableEq K] (s : LfuSt K V) (k : K) (v : V) :
    LfuSt K V :=
  if s.capacity_ = 0 then s
  else
    match alook s.cache_ k with
    | some (_, f) =>
      lfuUpdateFrequency { s with cache_ := aset s.cache_ k (v, f) } k v f
    | none =>
      let s1 :=
        if s.capacity_ ≤ s.cache_.length then
          match lfuEvictLFU s with
          | (some j, s') => { s' with cache_ := aerase s'.cache_ j }
          | (none, s') => s'
        else s
      { s1 with
        cache_ := aset s1.cache_ k (v, 1),
        buckets := addToBucketHead s1.buckets 1 k,
        min_frequency_ := 1 }

/-- `LfuCache::contains`. -/
def lfuContains {K V : Type} [DecidableEq K] (s : LfuSt K V) (k : K) : Bool :=
  (alook s.cache_ k).isSome

/-- `LfuCache::clear`. -/
def lfuClear {K V : Type} (s : LfuSt K V) : LfuSt K V :=
  { s with cache_ := [], buckets := [], min_frequency_ := 1 }

/-- `LfuCache::size` (returns `cache_.size()`). -/
def lfuSize {K V : Type} (s : LfuSt K V) : Nat := s.cache_.length

/-- `LfuCache::getFrequency` (0 when the key is absent). -/
def lfuGetFrequency {K V : Type} [DecidableEq K] (s : LfuSt K V) (k : K) :
    Nat :=
  match alook s.cache_ k with
  | none => 0
  | some (_, f) => f

/-- One public operation on the LFU engine. -/
def lfuStep {K V : Type} [DecidableEq K] (s : LfuSt K V) : Op K V → LfuSt K V
  | .get k => (lfuGet s k).2
  | .put k v => lfuPut s k v
  | .contains _ => s
  | .clear => lfuClear s

/-- Run a sequence of operations on the LFU engine. -/
def lfuRun {K V : Type} [DecidableEq K] (s : LfuSt K V) (ops : List (Op K V)) :
    LfuSt K V :=
  ops.foldl lfuStep s

/-! ### LRU-K engine (`src/src/LruKCache.cpp`)

`std::chrono::steady_clock` is modelled as a strictly increasing logical
counter `clock`; each `getCurrentTime()` call yields the current counter and
advances it.  Timestamp lists are queues with the front (list head) oldest
and the back (list last) newest, matching `push_back` / `pop_front`. -/

structure CacheRec (V : Type) where
  value : V
  access_times : List Nat
deriving DecidableEq

structure LruKSt (K V : Type) where
  capacity_ : Nat
  k_ : Nat
  clock : Nat
  history_ : List (K × List Nat)
  cache_ : List (K × CacheRec V)
deriving DecidableEq

/-- `LruKCache::LruKCache(capacity, k)`. -/
def lrukInit {K V : Type} (c kk : Nat) : LruKSt K V := ⟨c, kk, 0, [], []⟩

/-- `LruKCache::recordHistoryAccess`: append the current time to the key's
history queue (creating it on first access), dropping the oldest entry when
the queue exceeds K. -/
def lrukRecordHistory {K V : Type} [DecidableEq K] (s : LruKSt K V) (k : K) :
    LruKSt K V :=
  let now := s.clock
  let h' :=
    match alook s.history_ k with
    | none => s.history_ ++ [(k, [now])]
    | some ts =>
      let ts1 := ts ++ [now]
      aset s.history_ k (if s.k_ < ts1.length then ts1.tail else ts1)
  { s with history_ := h', clock := s.clock + 1 }

/-- Body of `LruKCache::recordCacheAccess` on one record: append the given
time, dropping the oldest entry when the queue exceeds K. -/
def recTouch {V : Type} (kval now : Nat) (r : CacheRec V) : CacheRec V :=
  let ts1 := r.access_times ++ [now]
  { r with access_times := if kval < ts1.length then ts1.tail else ts1 }

/-- `LruKCache::promoteToCache`: build a cache record from the triggering
value and the copied history queue, insert it into `cache_`, erase the
history record.  (The C++ throws when the key has no history record; that
path leaves the state unchanged here and is unreachable from `put`.) -/
def lrukPromote {K V : Type} [DecidableEq K] (s : LruKSt K V) (k : K) (v : V) :
    LruKSt K V :=
  match alook s.history_ k with
  | none => s
  | some ts =>
    { s with cache_ := aset s.cache_ k ⟨v, ts⟩,
             history_ := aerase s.history_ k }

/-- `LruKCache::getCacheKthAccessTime`: `TimeStamp::min()` (modelled 0) on an
empty queue, otherwise `access_times.back()` — the newest recorded time. -/
def getCacheKthAccessTime {V : Type} (r : CacheRec V) : Nat :=
  match r.access_times.getLast? with
  | none => 0
  | some t => t

/-- `LruKCache::findVictimKey`: first scan `history_` for records with fewer
than K accesses and take the one with the earliest first access time; when
none exists, take the cache record with the earliest
`getCacheKthAccessTime`; `none` models the throw when both scans fail. -/
def lrukFindVictim {K V : Type} [DecidableEq K] (s : LruKSt K V) : Option K :=
  let hcands := s.history_.filter (fun p => p.2.length < s.k_)
  match argminBy (fun p => p.2.headD 0) hcands with
  | some p => some p.1
  | none =>
    match argminBy (fun p => getCacheKthAccessTime p.2) s.cache_ with
    | some p => some p.1
    | none => none

/-- `LruKCache::get`: only the promoted table is visible; a hit records a
cache access and returns the value, a miss throws leaving the state
unchanged. -/
def lrukGet {K V : Type} [DecidableEq K] (s : LruKSt K V) (k : K) :
    Option V × LruKSt K V :=
  match alook s.cache_ k with
  | none => (none, s)
  | some r =>
    (some r.value,
     { s with cache_ := aset s.cache_ k (recTouch s.k_ s.clock r),
              clock := s.clock + 1 })

/-- `LruKCache::put`: update-and-touch on a promoted key; otherwise record a
history access and, when the key's queue has reached K entries, promote it —
evicting a victim first when the promoted table is at capacity (the throw
when no victim exists is modelled by stopping before the promotion). -/
def lrukPut {K V : Type} [DecidableEq K] (s : LruKSt K V) (k : K) (v : V) :
    LruKSt K V :=
  match alook s.cache_ k with
  | some r =>
    { s with
      cache_ := aset s.cache_ k (recTouch s.k_ s.clock { r with value := v }),
      clock := s.clock + 1 }
  | none =>
    let s1 := lrukRecordHistory s k
    match alook s1.history_ k with
    | none => s1
    | some ts =>
      if s1.k_ ≤ ts.length then
        if s1.capacity_ ≤ s1.cache_.length then
          match lrukFindVictim s1 with
          | none => s1
          | some j =>
            if (alook s1.cache_ j).isSome then
              lrukPromote { s1 with cache_ := aerase s1.cache_ j } k v
            else
              lrukPromote { s1 with history_ := aerase s1.history_ j } k v
        else lrukPromote s1 k v
      else s1

/-- `LruKCache::contains`: only promoted records count. -/
def lrukContains {K V : Type} [DecidableEq K] (s : LruKSt K V) (k : K) :
    Bool :=
  (alook s.cache_ k).isSome

/-- `LruKCache::clear`. -/
def lrukClear {K V : Type} (s : LruKSt K V) : LruKSt K V :=
  { s with cache_ := [], history_ := [] }

/-- `LruKCache::size` (returns `cache_.size()`, the promoted table count). -/
def lrukSize {K V : Type} (s : LruKSt K V) : Nat := s.cache_.length

/-- `LruKCache::getHistoryAccessCount`. -/
def lrukHistoryCount {K V : Type} [DecidableEq K] (s : LruKSt K V) (k : K) :
    Nat :=
  match alook s.history_ k with
  | none => 0
  | some ts => ts.length

/-- One public operation on the LRU-K engine. -/
def lrukStep {K V : Type} [DecidableEq K] (s : LruKSt K V) :
    Op K V → LruKSt K V
  | .get k => (lrukGet s k).2
  | .put k v => lrukPut s k v
  | .contains _ => s
  | .clear => lrukClear s

/-- Run a sequence of operations on the LRU-K engine. -/
def lrukRun {K V : Type} [DecidableEq K] (s : LruKSt K V)
    (ops : List (Op K V)) : LruKSt K V :=
  ops.foldl lrukStep s

/-! ### Invariant predicates, visible-value maps and trace predicates -/

/-- The bucket of a frequency: the key list stored in the bucket map, empty
when the map has no entry for it. -/
def bGet {K : Type} [DecidableEq K] (bs : List (Nat × List K)) (f : Nat) :
    List K :=
  (alook bs f).getD []

/-- The LRU representation invariant: positive capacity, `size_` in sync with
the recency list, capacity respected, index keys unique. -/
def LruInv {K V : Type} (s : LruSt K V) : Prop :=
  0 < s.capacity_ ∧ s.size_ = s.order.length ∧
    s.order.length ≤ s.capacity_ ∧ (akeys s.order).Nodup

/-- The FIFO representation invariant. -/
def FifoInv {K V : Type} (s : FifoSt K V) : Prop :=
  0 < s.capacity_ ∧ s.size_ = s.order.length ∧
    s.order.length ≤ s.capacity_ ∧ (akeys s.order).Nodup

/-- The LFU representation invariant: positive capacity, unique index keys,
capacity respected, index and buckets in mutual correspondence (each cached
key sits in exactly the bucket of its frequency, with frequency at least 1),
buckets duplicate-free, and `min_frequency_` equal to the smallest frequency
with a non-empty bucket (1 when the cache is empty). -/
def LfuInv {K V : Type} [DecidableEq K] (s : LfuSt K V) : Prop :=
  0 < s.capacity_ ∧
  (akeys s.cache_).Nodup ∧
  s.cache_.length ≤ s.capacity_ ∧
  (∀ k v f, alook s.cache_ k = some (v, f) → 1 ≤ f ∧ k ∈ bGet s.buckets f) ∧
  (∀ f k, k ∈ bGet s.buckets f → ∃ v, alook s.cache_ k = some (v, f)) ∧
  (∀ f, (bGet s.buckets f).Nodup) ∧
  (s.cache_ = [] → s.min_frequency_ = 1) ∧
  (s.cache_ ≠ [] →
    bGet s.buckets s.min_frequency_ ≠ [] ∧
    ∀ f, f < s.min_frequency_ → bGet s.buckets f = [])

/-- The LRU-K representation invariant needed here: positive capacity and K,
and duplicate-free keys in both tables. -/
def LruKInv {K V : Type} [DecidableEq K] (s : LruKSt K V) : Prop :=
  0 < s.capacity_ ∧ 0 < s.k_ ∧
    (akeys s.history_).Nodup ∧ (akeys s.cache_).Nodup

/-- The value the LRU engine holds for a key (its visible entry). -/
def lruVal {K V : Type} [DecidableEq K] (s : LruSt K V) (k : K) : Option V :=
  alook s.order k

/-- The value the FIFO engine holds for a key. -/
def fifoVal {K V : Type} [DecidableEq K] (s : FifoSt K V) (k : K) : Option V :=
  alook s.order k

/-- The value the LFU engine holds for a key. -/
def lfuVal {K V : Type} [DecidableEq K] (s : LfuSt K V) (k : K) : Option V :=
  (alook s.cache_ k).map Prod.fst

/-- The value the LRU-K engine holds for a key (promoted records only). -/
def lrukVal {K V : Type} [DecidableEq K] (s : LruKSt K V) (k : K) : Option V :=
  (alook s.cache_ k).map CacheRec.value

/-- Whether an operation is a `put` on the given key. -/
def isPutOn {K V : Type} [DecidableEq K] (k : K) : Op K V → Bool
  | .put j _ => decide (j = k)
  | _ => false

/-- A trace is safe for a key on the LRU engine when no operation of it
evicts the key (presence is preserved step by step) and none is a `put` on
the key. -/
def LruSafe {K V : Type} [DecidableEq K] (k : K) :
    LruSt K V → List (Op K V) → Prop
  | _, [] => True
  | s, op :: t =>
    ((lruVal s k).isSome → (lruVal (lruStep s op) k).isSome) ∧
      isPutOn k op = false ∧ LruSafe k (lruStep s op) t

/-- Trace safety for a key on the FIFO engine. -/
def FifoSafe {K V : Type} [DecidableEq K] (k : K) :
    FifoSt K V → List (Op K V) → Prop
  | _, [] => True
  | s, op :: t =>
    ((fifoVal s k).isSome → (fifoVal (fifoStep s op) k).isSome) ∧
      isPutOn k op = false ∧ FifoSafe k (fifoStep s op) t

/-- Trace safety for a key on the LFU engine. -/
def LfuSafe {K V : Type} [DecidableEq K] (k : K) :
    LfuSt K V → List (Op K V) → Prop
  | _, [] => True
  | s, op :: t =>
    ((lfuVal s k).isSome → (lfuVal (lfuStep s op) k).isSome) ∧
      isPutOn k op = false ∧ LfuSafe k (lfuStep s op) t

/-- Trace safety for a key on the LRU-K engine. -/
def LruKSafe {K V : Type} [DecidableEq K] (k : K) :
    LruKSt K V → List (Op K V) → Prop
  | _, [] => True
  | s, op :: t =>
    ((lrukVal s k).isSome → (lrukVal (lrukStep s op) k).isSome) ∧
      isPutOn k op = false ∧ LruKSafe k (lrukStep s op) t

/-- The cache-table victim rule exactly as the specification words it: the
promoted record whose OLDEST queue timestamp (the front, its K-th most
recent access) is earliest.  Kept separate from `lrukFindVictim`, which is
translated from the code, so the two rules can be compared. -/
def specFrontVictim {K V : Type} [DecidableEq K] (s : LruKSt K V) :
    Option K :=
  (argminBy (fun p => p.2.access_times.headD 0) s.cache_).map Prod.fst

/-- One first-time `put` for each of the keys `0, …, n-1`. -/
def lrukPuts (n : Nat) : List (Op Nat Nat) :=
  (List.range n).map (fun i => Op.put i 0)

/-! ### Lemmas about the association-list primitives -/

theorem akeys_nil {K V : Type} : akeys ([] : List (K × V)) = [] := rfl

theorem akeys_cons {K V : Type} (k : K) (v : V) (t : List (K × V)) :
    akeys ((k, v) :: t) = k :: akeys t := rfl

theorem akeys_append {K V : Type} (l1 l2 : List (K × V)) :
    akeys (l1 ++ l2) = akeys l1 ++ akeys l2 :=
  List.map_append _ _ _

theorem alook_eq_none_iff {K V : Type} [DecidableEq K]
    {l : List (K × V)} {k : K} : alook l k = none ↔ k ∉ akeys l := by
  induction l with
  | nil => simp [alook, akeys]
  | cons p t ih =>
    obtain ⟨k', v⟩ := p
    by_cases h : k = k' <;> simp [alook, akeys, h, ih]

theorem alook_isSome_iff {K V : Type} [DecidableEq K]
    {l : List (K × V)} {k : K} : (alook l k).isSome ↔ k ∈ akeys l := by
  rcases h : alook l k with _ | v
  · simp [alook_eq_none_iff.mp h]
  · have : ¬ alook l k = none := by simp [h]
    rw [alook_eq_none_iff] at this
    simp [h, not_not.mp this]

theorem alook_mem {K V : Type} [DecidableEq K]
    {l : List (K × V)} {k : K} {v : V} (h : alook l k = some v) : (k, v) ∈ l := by
  induction l with
  | nil => simp [alook] at h
  | cons p t ih =>
    obtain ⟨k', v'⟩ := p
    by_cases hk : k = k'
    · simp [alook, hk] at h
      simp [hk, h]
    · simp [alook, hk] at h
      exact List.mem_cons_of_mem _ (ih h)

theorem alook_of_mem_nodup {K V : Type} [DecidableEq K]
    {l : List (K × V)} {k : K} {v : V} (hnd : (akeys l).Nodup)
    (h : (k, v) ∈ l) : alook l k = some v := by
  induction l with
  | nil => simp at h
  | cons p t ih =>
    obtain ⟨k', v'⟩ := p
    rw [akeys_cons] at hnd
    obtain ⟨hk', hnd'⟩ := List.nodup_cons.mp hnd
    rcases List.mem_cons.mp h with h1 | h1
    · injection h1 with h2 h3
      simp [alook, h2, h3]
    · have hk : k ≠ k' := by
        intro he
        apply hk'
        rw [← he]
        exact List.mem_map_of_mem Prod.fst h1
      simp [alook, hk]
      exact ih hnd' h1

theorem alook_aset_self {K V : Type} [DecidableEq K]
    (l : List (K × V)) (k : K) (v : V) : alook (aset l k v) k = some v := by
  induction l with
  | nil => simp [aset, alook]
  | cons p t ih =>
    obtain ⟨k', v'⟩ := p
    by_cases h : k = k' <;> simp [aset, alook, h, ih]

theorem alook_aset_ne {K V : Type} [DecidableEq K]
    {l : List (K × V)} {k j : K} (v : V) (h : k ≠ j) :
    alook (aset l j v) k = alook l k := by
  induction l with
  | nil => simp [aset, alook, h]
  | cons p t ih =>
    obtain ⟨k', v'⟩ := p
    by_cases hj : j = k'
    · subst hj
      simp [aset, alook, h]
    · by_cases hk : k = k' <;> simp [aset, alook, hj, hk, ih]

theorem akeys_aset_of_mem {K V : Type} [DecidableEq K]
    {l : List (K × V)} {k : K} (v : V) (h : k ∈ akeys l) :
    akeys (aset l k v) = akeys l := by
  induction l with
  | nil => simp [akeys] at h
  | cons p t ih =>
    obtain ⟨k', v'⟩ := p
    by_cases hk : k = k'
    · simp [aset, hk, akeys_cons]
    · have h2 : k ∈ akeys t := by
        rcases List.mem_cons.mp (show k ∈ k' :: akeys t from h) with h1 | h1
        · exact absurd h1 hk
        · exact h1
      simp only [aset]
      rw [if_neg hk, akeys_cons, akeys_cons, ih h2]

theorem akeys_aset_of_not_mem {K V : Type} [DecidableEq K]
    {l : List (K × V)} {k : K} (v : V) (h : k ∉ akeys l) :
    akeys (aset l k v) = akeys l ++ [k] := by
  induction l with
  | nil => simp [aset, akeys]
  | cons p t ih =>
    obtain ⟨k', v'⟩ := p
    rw [akeys_cons] at h
    have h1 : k ≠ k' ∧ k ∉ akeys t := by
      constructor
      · intro he
        exact h (he ▸ List.mem_cons_self _ _)
      · intro hm
        exact h (List.mem_cons_of_mem _ hm)
    simp only [aset]
    rw [if_neg h1.1, akeys_cons, akeys_cons, ih h1.2]
    simp

theorem length_aset_of_mem {K V : Type} [DecidableEq K]
    {l : List (K × V)} {k : K} (v : V) (h : k ∈ akeys l) :
    (aset l k v).length = l.length := by
  have := akeys_aset_of_mem (l := l) (k := k) v h
  have h1 : (akeys (aset l k v)).length = (akeys l).length := by rw [this]
  simpa [akeys] using h1

theorem length_aset_of_not_mem {K V : Type} [DecidableEq K]
    {l : List (K × V)} {k : K} (v : V) (h : k ∉ akeys l) :
    (aset l k v).length = l.length + 1 := by
  have := akeys_aset_of_not_mem (l := l) (k := k) v h
  have h1 : (akeys (aset l k v)).length = (akeys l ++ [k]).length := by rw [this]
  simpa [akeys] using h1

theorem aerase_sublist {K V : Type} [DecidableEq K]
    (l : List (K × V)) (k : K) : (aerase l k).Sublist l := by
  induction l with
  | nil => simp [aerase]
  | cons p t ih =>
    obtain ⟨k', v'⟩ := p
    by_cases h : k = k'
    · simp only [aerase]
      rw [if_pos h]
      exact List.sublist_cons_self _ _
    · simp only [aerase]
      rw [if_neg h]
      exact List.Sublist.cons₂ _ ih

theorem alook_aerase_ne {K V : Type} [DecidableEq K]
    {l : List (K × V)} {k j : K} (h : k ≠ j) :
    alook (aerase l j) k = alook l k := by
  induction l with
  | nil => simp [aerase]
  | cons p t ih =>
    obtain ⟨k', v'⟩ := p
    by_cases hj : j = k'
    · subst hj
      simp [aerase, alook, h]
    · by_cases hk : k = k' <;> simp [aerase, alook, hj, hk, ih]

theorem akeys_aerase {K V : Type} [DecidableEq K]
    (l : List (K × V)) (k : K) : akeys (aerase l k) = lrem (akeys l) k := by
  induction l with
  | nil => simp [aerase, akeys, lrem]
  | cons p t ih =>
    obtain ⟨k', v'⟩ := p
    by_cases h : k = k'
    · subst h
      simp only [aerase, lrem, akeys_cons]
      simp
      rfl
    · simp only [aerase, lrem, akeys_cons]
      rw [if_neg h, if_neg (fun he => h he.symm), akeys_cons, ih]
      rfl

theorem lrem_sublist {K : Type} [DecidableEq K] (l : List K) (k : K) :
    (lrem l k).Sublist l := by
  induction l with
  | nil => simp [lrem]
  | cons a t ih =>
    by_cases h : a = k
    · simp only [lrem]
      rw [if_pos h]
      exact List.sublist_cons_self _ _
    · simp only [lrem]
      rw [if_neg h]
      exact List.Sublist.cons₂ _ ih

theorem mem_lrem_of_ne {K : Type} [DecidableEq K]
    {l : List K} {a k : K} (hne : a ≠ k) (h : a ∈ l) : a ∈ lrem l k := by
  induction l with
  | nil => simp at h
  | cons b t ih =>
    by_cases hb : b = k
    · subst hb
      rcases List.mem_cons.mp h with h1 | h1
      · exact absurd h1 hne
      · simpa [lrem] using h1
    · rcases List.mem_cons.mp h with h1 | h1
      · simp [lrem, hb, h1]
      · simp [lrem, hb]
        exact Or.inr (ih h1)

theorem not_mem_lrem_self {K : Type} [DecidableEq K]
    {l : List K} (hnd : l.Nodup) (k : K) : k ∉ lrem l k := by
  induction l with
  | nil => simp [lrem]
  | cons a t ih =>
    rcases List.nodup_cons.mp hnd with ⟨ha, ht⟩
    by_cases h : a = k
    · subst h
      simpa [lrem] using ha
    · simp [lrem, h]
      push_neg
      exact ⟨fun he => h he.symm, ih ht⟩

theorem length_lrem_of_mem {K : Type} [DecidableEq K]
    {l : List K} {k : K} (h : k ∈ l) : (lrem l k).length + 1 = l.length := by
  induction l with
  | nil => simp at h
  | cons a t ih =>
    by_cases ha : a = k
    · simp [lrem, ha]
    · rcases List.mem_cons.mp h with h1 | h1
      · exact absurd h1.symm ha
      · simp [lrem, ha, ← ih h1]

theorem length_aerase_of_mem {K V : Type} [DecidableEq K]
    {l : List (K × V)} {k : K} (h : k ∈ akeys l) :
    (aerase l k).length + 1 = l.length := by
  have h1 : (akeys (aerase l k)).length + 1 = (akeys l).length := by
    rw [akeys_aerase]
    exact length_lrem_of_mem h
  simpa [akeys] using h1

theorem alook_append {K V : Type} [DecidableEq K]
    (l1 l2 : List (K × V)) (k : K) :
    alook (l1 ++ l2) k =
      match alook l1 k with
      | some v => some v
      | none => alook l2 k := by
  induction l1 with
  | nil => simp [alook]
  | cons p t ih =>
    obtain ⟨k', v'⟩ := p
    by_cases h : k = k' <;> simp [alook, h, ih]

/-! ### Lemmas about `argminBy` -/

theorem argminBy_go_mem {A : Type} (f : A → Nat) :
    ∀ (l : List A) (acc : Option A) (a : A),
      List.foldl
        (fun best x =>
          match best with
          | none => some x
          | some b => if f x < f b then some x else best)
        acc l = some a → acc = some a ∨ a ∈ l := by
  intro l
  induction l with
  | nil => intro acc a h; exact Or.inl h
  | cons x t ih =>
    intro acc a h
    rcases ih _ a h with h1 | h1
    · rcases acc with _ | b
      · simp at h1
        simp [h1]
      · simp at h1
        by_cases hf : f x < f b
        · simp [hf] at h1
          simp [h1]
        · simp [hf] at h1
          simp [h1]
    · simp [h1]

theorem argminBy_go_le {A : Type} (f : A → Nat) :
    ∀ (l : List A) (acc : Option A) (a : A),
      List.foldl
        (fun best x =>
          match best with
          | none => some x
          | some b => if f x < f b then some x else best)
        acc l = some a →
      (∀ b, acc = some b → f a ≤ f b) ∧ ∀ b ∈ l, f a ≤ f b := by
  intro l
  induction l with
  | nil =>
    intro acc a h
    refine ⟨fun b hb => ?_, by simp⟩
    have h2 : some a = some b := h.symm.trans hb
    injection h2 with he
    exact le_of_eq (congrArg f he)
  | cons x t ih =>
    intro acc a h
    obtain ⟨hacc, hmem⟩ := ih _ a h
    have hax : f a ≤ f x := by
      rcases acc with _ | b
      · exact hacc x rfl
      · by_cases hf : f x < f b
        · exact hacc x (by simp [hf])
        · exact le_trans (hacc b (by simp [hf])) (le_of_not_lt hf)
    refine ⟨fun b hb => ?_, fun b hb => ?_⟩
    · subst hb
      by_cases hf : f x < f b
      · exact le_trans (hacc x (by simp [hf])) (le_of_lt hf)
      · exact hacc b (by simp [hf])
    · rcases List.mem_cons.mp hb with h1 | h1
      · exact h1 ▸ hax
      · exact hmem b h1

theorem argminBy_go_isSome {A : Type} (f : A → Nat) :
    ∀ (l : List A) (acc : Option A), acc.isSome ∨ l ≠ [] →
      (List.foldl
        (fun best x =>
          match best with
          | none => some x
          | some b => if f x < f b then some x else best)
        acc l).isSome := by
  intro l
  induction l with
  | nil =>
    intro acc h
    rcases h with h | h
    · simpa using h
    · simp at h
  | cons x t ih =>
    intro acc h
    apply ih
    left
    rcases acc with _ | b
    · simp
    · by_cases hf : f x < f b <;> simp [hf]

theorem argminBy_mem {A : Type} {f : A → Nat} {l : List A} {a : A}
    (h : argminBy f l = some a) : a ∈ l := by
  rcases argminBy_go_mem f l none a h with h1 | h1
  · simp at h1
  · exact h1

theorem argminBy_le {A : Type} {f : A → Nat} {l : List A} {a : A}
    (h : argminBy f l = some a) : ∀ b ∈ l, f a ≤ f b :=
  (argminBy_go_le f l none a h).2

theorem argminBy_isSome {A : Type} (f : A → Nat) {l : List A} (h : l ≠ []) :
    (argminBy f l).isSome :=
  argminBy_go_isSome f l none (Or.inr h)

theorem nodup_akeys_aerase {K V : Type} [DecidableEq K]
    {l : List (K × V)} (h : (akeys l).Nodup) (k : K) :
    (akeys (aerase l k)).Nodup := by
  rw [akeys_aerase]
  exact (lrem_sublist _ _).nodup h

theorem not_mem_akeys_aerase {K V : Type} [DecidableEq K]
    {l : List (K × V)} (h : (akeys l).Nodup) (k : K) :
    k ∉ akeys (aerase l k) := by
  rw [akeys_aerase]
  exact not_mem_lrem_self h k

theorem akeys_dropLast_sublist {K V : Type} (l : List (K × V)) :
    (akeys l.dropLast).Sublist (akeys l) :=
  (List.dropLast_sublist l).map Prod.fst

/-! ### Invariants of the LRU engine -/

theorem lruInv_init {K V : Type} {c : Nat} (hc : 0 < c) :
    LruInv (lruInit c : LruSt K V) := by
  refine ⟨hc, rfl, by simp [lruInit], by simp [lruInit, akeys]⟩

theorem lruInv_step {K V : Type} [DecidableEq K] {s : LruSt K V}
    (h : LruInv s) (op : Op K V) : LruInv (lruStep s op) := by
  obtain ⟨hcap, hsz, hle, hnd⟩ := h
  cases op with
  | get k =>
    show LruInv (lruGet s k).2
    rcases hk : alook s.order k with _ | v
    · have hstate : (lruGet s k).2 = s := by simp [lruGet, hk]
      rw [hstate]
      exact ⟨hcap, hsz, hle, hnd⟩
    · have hstate : (lruGet s k).2 =
          { s with order := (k, v) :: aerase s.order k } := by
        simp [lruGet, hk]
      have hmem : k ∈ akeys s.order :=
        alook_isSome_iff.mp (by simp [hk])
      rw [hstate]
      refine ⟨hcap, ?_, ?_, ?_⟩
      · show s.size_ = ((k, v) :: aerase s.order k).length
        rw [List.length_cons, length_aerase_of_mem hmem]
        exact hsz
      · show ((k, v) :: aerase s.order k).length ≤ s.capacity_
        rw [List.length_cons, length_aerase_of_mem hmem]
        exact hle
      · show (akeys ((k, v) :: aerase s.order k)).Nodup
        rw [akeys_cons]
        exact List.nodup_cons.mpr
          ⟨not_mem_akeys_aerase hnd k, nodup_akeys_aerase hnd k⟩
  | put k v =>
    show LruInv (lruPut s k v)
    rcases hk : alook s.order k with _ | v0
    · have hnotmem : k ∉ akeys s.order := alook_eq_none_iff.mp hk
      by_cases hfull : s.capacity_ ≤ s.size_
      · have hstate : lruPut s k v =
            { s with order := (k, v) :: s.order.dropLast,
                     size_ := s.size_ - 1 + 1 } := by
          simp [lruPut, hk, hfull]
        have hlen1 : 1 ≤ s.order.length := by omega
        rw [hstate]
        refine ⟨hcap, ?_, ?_, ?_⟩
        · show s.size_ - 1 + 1 = ((k, v) :: s.order.dropLast).length
          rw [List.length_cons, List.length_dropLast]
          omega
        · show ((k, v) :: s.order.dropLast).length ≤ s.capacity_
          rw [List.length_cons, List.length_dropLast]
          omega
        · show (akeys ((k, v) :: s.order.dropLast)).Nodup
          rw [akeys_cons]
          refine List.nodup_cons.mpr ⟨?_, (akeys_dropLast_sublist _).nodup hnd⟩
          intro hmem
          exact hnotmem ((akeys_dropLast_sublist _).subset hmem)
      · have hstate : lruPut s k v =
            { s with order := (k, v) :: s.order, size_ := s.size_ + 1 } := by
          simp [lruPut, hk, hfull]
        rw [hstate]
        refine ⟨hcap, ?_, ?_, ?_⟩
        · show s.size_ + 1 = ((k, v) :: s.order).length
          rw [List.length_cons]
          omega
        · show ((k, v) :: s.order).length ≤ s.capacity_
          rw [List.length_cons]
          omega
        · show (akeys ((k, v) :: s.order)).Nodup
          rw [akeys_cons]
          exact List.nodup_cons.mpr ⟨hnotmem, hnd⟩
    · have hstate : lruPut s k v =
          { s with order := (k, v) :: aerase s.order k } := by
        simp [lruPut, hk]
      have hmem : k ∈ akeys s.order :=
        alook_isSome_iff.mp (by simp [hk])
      rw [hstate]
      refine ⟨hcap, ?_, ?_, ?_⟩
      · show s.size_ = ((k, v) :: aerase s.order k).length
        rw [List.length_cons, length_aerase_of_mem hmem]
        exact hsz
      · show ((k, v) :: aerase s.order k).length ≤ s.capacity_
        rw [List.length_cons, length_aerase_of_mem hmem]
        exact hle
      · show (akeys ((k, v) :: aerase s.order k)).Nodup
        rw [akeys_cons]
        exact List.nodup_cons.mpr
          ⟨not_mem_akeys_aerase hnd k, nodup_akeys_aerase hnd k⟩
  | contains k => exact ⟨hcap, hsz, hle, hnd⟩
  | clear =>
    show LruInv (lruClear s)
    exact ⟨hcap, rfl, by simp [lruClear], by simp [lruClear, akeys]⟩

theorem lruInv_run {K V : Type} [DecidableEq K] {s : LruSt K V}
    (h : LruInv s) (ops : List (Op K V)) : LruInv (lruRun s ops) := by
  induction ops generalizing s with
  | nil => exact h
  | cons op t ih => exact ih (lruInv_step h op)

theorem lruStep_capacity {K V : Type} [DecidableEq K] (s : LruSt K V)
    (op : Op K V) : (lruStep s op).capacity_ = s.capacity_ := by
  cases op with
  | get k =>
    show (lruGet s k).2.capacity_ = _
    rcases hk : alook s.order k with _ | v <;> simp [lruGet, hk]
  | put k v =>
    show (lruPut s k v).capacity_ = _
    rcases hk : alook s.order k with _ | v0
    · by_cases hfull : s.capacity_ ≤ s.size_ <;> simp [lruPut, hk, hfull]
    · simp [lruPut, hk]
  | contains k => rfl
  | clear => rfl

theorem lruRun_capacity {K V : Type} [DecidableEq K] (s : LruSt K V)
    (ops : List (Op K V)) : (lruRun s ops).capacity_ = s.capacity_ := by
  induction ops generalizing s with
  | nil => rfl
  | cons op t ih => rw [lruRun, List.foldl_cons, ← lruRun, ih, lruStep_capacity]

/-! ### Invariants of the FIFO engine -/

theorem fifoInv_init {K V : Type} {c : Nat} (hc : 0 < c) :
    FifoInv (fifoInit c : FifoSt K V) := by
  refine ⟨hc, rfl, by simp [fifoInit], by simp [fifoInit, akeys]⟩

theorem fifoInv_step {K V : Type} [DecidableEq K] {s : FifoSt K V}
    (h : FifoInv s) (op : Op K V) : FifoInv (fifoStep s op) := by
  obtain ⟨hcap, hsz, hle, hnd⟩ := h
  cases op with
  | get k => exact ⟨hcap, hsz, hle, hnd⟩
  | put k v =>
    show FifoInv (fifoPut s k v)
    rcases hk : alook s.order k with _ | v0
    · have hnotmem : k ∉ akeys s.order := alook_eq_none_iff.mp hk
      by_cases hfull : s.capacity_ ≤ s.size_
      · rcases horder : s.order with _ | ⟨p, t⟩
        · rw [horder] at hsz
          simp at hsz
          omega
        · obtain ⟨k0, v0'⟩ := p
          rw [horder, akeys_cons] at hnotmem hnd
          rw [horder] at hsz hle hk
          obtain ⟨hk0, hndt⟩ := List.nodup_cons.mp hnd
          have hstate : fifoPut s k v =
              { s with order := t ++ [(k, v)], size_ := s.size_ - 1 + 1 } := by
            simp [fifoPut, hk, hfull, horder]
          rw [hstate]
          have hknt : k ∉ akeys t := fun hm => hnotmem (List.mem_cons_of_mem _ hm)
          refine ⟨hcap, ?_, ?_, ?_⟩
          · show s.size_ - 1 + 1 = (t ++ [(k, v)]).length
            rw [List.length_append]
            rw [List.length_cons] at hsz
            simp
            omega
          · show (t ++ [(k, v)]).length ≤ s.capacity_
            rw [List.length_append]
            rw [List.length_cons] at hle
            simp
            omega
          · show (akeys (t ++ [(k, v)])).Nodup
            rw [akeys_append]
            refine List.nodup_append.mpr ⟨hndt, List.nodup_singleton _, ?_⟩
            intro a ha hb
            rw [akeys_cons, akeys_nil] at hb
            rcases List.mem_singleton.mp hb with rfl
            exact hknt ha
      · have hstate : fifoPut s k v =
            { s with order := s.order ++ [(k, v)], size_ := s.size_ + 1 } := by
          simp [fifoPut, hk, hfull]
        rw [hstate]
        refine ⟨hcap, ?_, ?_, ?_⟩
        · show s.size_ + 1 = (s.order ++ [(k, v)]).length
          rw [List.length_append]
          simp
          omega
        · show (s.order ++ [(k, v)]).length ≤ s.capacity_
          rw [List.length_append]
          simp
          omega
        · show (akeys (s.order ++ [(k, v)])).Nodup
          rw [akeys_append]
          refine List.nodup_append.mpr ⟨hnd, List.nodup_singleton _, ?_⟩
          intro a ha hb
          rw [akeys_cons, akeys_nil] at hb
          rcases List.mem_singleton.mp hb with rfl
          exact hnotmem ha
    · have hmem : k ∈ akeys s.order :=
        alook_isSome_iff.mp (by simp [hk])
      have hstate : fifoPut s k v = { s with order := aset s.order k v } := by
        simp [fifoPut, hk]
      rw [hstate]
      refine ⟨hcap, ?_, ?_, ?_⟩
      · show s.size_ = (aset s.order k v).length
        rw [length_aset_of_mem _ hmem]
        exact hsz
      · show (aset s.order k v).length ≤ s.capacity_
        rw [length_aset_of_mem _ hmem]
        exact hle
      · show (akeys (aset s.order k v)).Nodup
        rw [akeys_aset_of_mem _ hmem]
        exact hnd
  | contains k => exact ⟨hcap, hsz, hle, hnd⟩
  | clear =>
    show FifoInv (fifoClear s)
    exact ⟨hcap, rfl, by simp [fifoClear], by simp [fifoClear, akeys]⟩

theorem fifoInv_run {K V : Type} [DecidableEq K] {s : FifoSt K V}
    (h : FifoInv s) (ops : List (Op K V)) : FifoInv (fifoRun s ops) := by
  induction ops generalizing s with
  | nil => exact h
  | cons op t ih => exact ih (fifoInv_step h op)

theorem fifoStep_capacity {K V : Type} [DecidableEq K] (s : FifoSt K V)
    (op : Op K V) : (fifoStep s op).capacity_ = s.capacity_ := by
  cases op with
  | get k => rfl
  | put k v =>
    show (fifoPut s k v).capacity_ = _
    rcases hk : alook s.order k with _ | v0
    · by_cases hfull : s.capacity_ ≤ s.size_
      · rcases horder : s.order with _ | ⟨p, t⟩ <;> rw [horder] at hk <;>
          simp [fifoPut, hk, hfull, horder]
      · simp [fifoPut, hk, hfull]
    · simp [fifoPut, hk]
  | contains k => rfl
  | clear => rfl

theorem fifoRun_capacity {K V : Type} [DecidableEq K] (s : FifoSt K V)
    (ops : List (Op K V)) : (fifoRun s ops).capacity_ = s.capacity_ := by
  induction ops generalizing s with
  | nil => rfl
  | cons op t ih => rw [fifoRun, List.foldl_cons, ← fifoRun, ih, fifoStep_capacity]

/-! ### Lemmas about buckets (LFU engine) -/

theorem bGet_eq_of_alook {K : Type} [DecidableEq K]
    {bs : List (Nat × List K)} {f : Nat} {l : List K}
    (h : alook bs f = some l) : bGet bs f = l := by
  simp [bGet, h]

theorem alook_of_bGet_ne_nil {K : Type} [DecidableEq K]
    {bs : List (Nat × List K)} {f : Nat} (h : bGet bs f ≠ []) :
    alook bs f = some (bGet bs f) := by
  rcases hb : alook bs f with _ | l
  · exact absurd (by simp [bGet, hb]) h
  · rw [bGet_eq_of_alook hb]

theorem bGet_aset_self {K : Type} [DecidableEq K]
    (bs : List (Nat × List K)) (f : Nat) (l : List K) :
    bGet (aset bs f l) f = l := by
  simp [bGet, alook_aset_self]

theorem bGet_aset_ne {K : Type} [DecidableEq K]
    {bs : List (Nat × List K)} {f g : Nat} (l : List K) (h : g ≠ f) :
    bGet (aset bs f l) g = bGet bs g := by
  simp [bGet, alook_aset_ne _ h]

theorem bGet_add_self {K : Type} [DecidableEq K]
    (bs : List (Nat × List K)) (f : Nat) (k : K) :
    bGet (addToBucketHead bs f k) f = k :: bGet bs f := by
  rcases hb : alook bs f with _ | l
  · simp only [addToBucketHead, hb]
    simp [bGet, alook_append, hb, alook]
  · simp only [addToBucketHead, hb]
    rw [bGet_aset_self, bGet_eq_of_alook hb]

theorem bGet_add_ne {K : Type} [DecidableEq K]
    {bs : List (Nat × List K)} {f g : Nat} (k : K) (h : g ≠ f) :
    bGet (addToBucketHead bs f k) g = bGet bs g := by
  rcases hb : alook bs f with _ | l
  · simp only [addToBucketHead, hb]
    simp [bGet, alook_append, h]
    rcases hg : alook bs g with _ | lg
    · simp [alook, h]
    · simp
  · simp only [addToBucketHead, hb]
    exact bGet_aset_ne _ h

theorem lfu_not_in_bucket {K V : Type} [DecidableEq K] {s : LfuSt K V}
    (h5 : ∀ f k, k ∈ bGet s.buckets f → ∃ v, alook s.cache_ k = some (v, f))
    {k : K} (hk : alook s.cache_ k = none) (f : Nat) :
    k ∉ bGet s.buckets f := by
  intro hm
  rcases h5 f k hm with ⟨v, hv⟩
  rw [hk] at hv
  cases hv

theorem lfu_bucket_freq {K V : Type} [DecidableEq K] {s : LfuSt K V}
    (h5 : ∀ f k, k ∈ bGet s.buckets f → ∃ v, alook s.cache_ k = some (v, f))
    {k : K} {v : V} {f0 : Nat} (hk : alook s.cache_ k = some (v, f0))
    {f : Nat} (hm : k ∈ bGet s.buckets f) : f = f0 := by
  rcases h5 f k hm with ⟨v', hv⟩
  rw [hk] at hv
  injection hv with hv2
  injection hv2 with _ h2
  exact h2.symm

theorem mem_dropLast_of_ne {A : Type} {l : List A} {a j : A}
    (hj : l.getLast? = some j) (ha : a ∈ l) (hne : a ≠ j) :
    a ∈ l.dropLast := by
  have hl : l ≠ [] := by
    intro he
    rw [he] at hj
    simp at hj
  have heq : l.dropLast ++ [l.getLast hl] = l := List.dropLast_append_getLast hl
  have hj2 : l.getLast hl = j := by
    rw [List.getLast?_eq_getLast l hl] at hj
    injection hj
  rw [← heq] at ha
  rcases List.mem_append.mp ha with h1 | h1
  · exact h1
  · rw [List.mem_singleton.mp h1, hj2] at hne
    exact absurd rfl hne

theorem ne_getLast_of_mem_dropLast {A : Type} {l : List A} {a j : A}
    (hnd : l.Nodup) (hj : l.getLast? = some j) (ha : a ∈ l.dropLast) :
    a ≠ j := by
  have hl : l ≠ [] := by
    intro he
    rw [he] at hj
    simp at hj
  have heq : l.dropLast ++ [l.getLast hl] = l := List.dropLast_append_getLast hl
  have hj2 : l.getLast hl = j := by
    rw [List.getLast?_eq_getLast l hl] at hj
    injection hj
  rw [← heq] at hnd
  have hdisj := (List.nodup_append.mp hnd).2.2
  intro he
  exact hdisj ha (by rw [he, hj2]; exact List.mem_singleton_self _)

theorem getLast?_mem_of_eq {A : Type} {l : List A} {j : A}
    (hj : l.getLast? = some j) : j ∈ l := by
  have hl : l ≠ [] := by
    intro he
    rw [he] at hj
    simp at hj
  have hj2 : l.getLast hl = j := by
    rw [List.getLast?_eq_getLast l hl] at hj
    injection hj
  rw [← hj2]
  exact List.getLast_mem hl

/-! ### Preservation of the LFU invariant -/

theorem lfuInv_updateFrequency {K V : Type} [DecidableEq K] {s : LfuSt K V}
    {k : K} {v : V} {f : Nat} (h : LfuInv s)
    (hk : alook s.cache_ k = some (v, f)) :
    LfuInv (lfuUpdateFrequency s k v f) := by
  obtain ⟨hcap, hnd, hlen, h4, h5, h6, h7, h8⟩ := h
  obtain ⟨hf1, hkb⟩ := h4 k v f hk
  have hkmem : k ∈ akeys s.cache_ := alook_isSome_iff.mp (by simp [hk])
  have hbne : bGet s.buckets f ≠ [] := fun he => by
    rw [he] at hkb
    exact List.not_mem_nil k hkb
  rcases hbl : alook s.buckets f with _ | l
  · exact absurd (by simp [bGet, hbl]) hbne
  have hlval : bGet s.buckets f = l := bGet_eq_of_alook hbl
  rw [hlval] at hkb
  have hlnd : l.Nodup := hlval ▸ h6 f
  have hfs : f ≠ f + 1 := by omega
  have hknotb : ∀ g, g ≠ f → k ∉ bGet s.buckets g := by
    intro g hg hm
    exact hg (lfu_bucket_freq h5 hk hm)
  have hstate : lfuUpdateFrequency s k v f =
      { s with
        cache_ := aset s.cache_ k (v, f + 1),
        buckets := addToBucketHead (aset s.buckets f (lrem l k)) (f + 1) k,
        min_frequency_ :=
          if lrem l k = [] ∧ f = s.min_frequency_ then s.min_frequency_ + 1
          else s.min_frequency_ } := by
    simp [lfuUpdateFrequency, hbl]
  rw [hstate]
  have hbf1 : bGet (addToBucketHead (aset s.buckets f (lrem l k)) (f + 1) k)
      (f + 1) = k :: bGet s.buckets (f + 1) := by
    rw [bGet_add_self, bGet_aset_ne _ (by omega : f + 1 ≠ f)]
  have hbf : bGet (addToBucketHead (aset s.buckets f (lrem l k)) (f + 1) k) f
      = lrem l k := by
    rw [bGet_add_ne _ hfs, bGet_aset_self]
  have hbo : ∀ g, g ≠ f → g ≠ f + 1 →
      bGet (addToBucketHead (aset s.buckets f (lrem l k)) (f + 1) k) g
        = bGet s.buckets g := by
    intro g hg1 hg2
    rw [bGet_add_ne _ hg2, bGet_aset_ne _ hg1]
  refine ⟨hcap, ?_, ?_, ?_, ?_, ?_, ?_, ?_⟩
  · show (akeys (aset s.cache_ k (v, f + 1))).Nodup
    rw [akeys_aset_of_mem _ hkmem]
    exact hnd
  · show (aset s.cache_ k (v, f + 1)).length ≤ s.capacity_
    rw [length_aset_of_mem _ hkmem]
    exact hlen
  · intro k2 v2 g2 hlook
    by_cases hk2 : k2 = k
    · subst hk2
      rw [alook_aset_self] at hlook
      injection hlook with he
      injection he with he1 he2
      refine ⟨by omega, ?_⟩
      rw [← he2, hbf1]
      exact List.mem_cons_self _ _
    · rw [alook_aset_ne _ hk2] at hlook
      obtain ⟨hf2, hmem2⟩ := h4 k2 v2 g2 hlook
      refine ⟨hf2, ?_⟩
      by_cases hc1 : g2 = f + 1
      · rw [hc1, hbf1]
        exact List.mem_cons_of_mem _ (hc1 ▸ hmem2)
      · by_cases hc2 : g2 = f
        · rw [hc2, hbf]
          exact mem_lrem_of_ne hk2 (hlval ▸ (hc2 ▸ hmem2))
        · rw [hbo g2 hc2 hc1]
          exact hmem2
  · intro g2 k2 hm
    by_cases hc1 : g2 = f + 1
    · rw [hc1, hbf1] at hm
      rcases List.mem_cons.mp hm with rfl | hm2
      · exact ⟨v, by rw [hc1]; exact alook_aset_self _ _ _⟩
      · have hkne : k2 ≠ k := fun he =>
          hknotb (f + 1) (by omega) (he ▸ hm2)
        obtain ⟨v2, hv2⟩ := h5 (f + 1) k2 hm2
        exact ⟨v2, by rw [alook_aset_ne _ hkne, hc1]; exact hv2⟩
    · by_cases hc2 : g2 = f
      · rw [hc2, hbf] at hm
        have hm2 : k2 ∈ l := (lrem_sublist l k).subset hm
        have hkne : k2 ≠ k := fun he => not_mem_lrem_self hlnd k (he ▸ hm)
        obtain ⟨v2, hv2⟩ := h5 f k2 (by rw [hlval]; exact hm2)
        exact ⟨v2, by rw [alook_aset_ne _ hkne, hc2]; exact hv2⟩
      · rw [hbo g2 hc2 hc1] at hm
        have hkne : k2 ≠ k := fun he => hknotb g2 hc2 (he ▸ hm)
        obtain ⟨v2, hv2⟩ := h5 g2 k2 hm
        exact ⟨v2, by rw [alook_aset_ne _ hkne]; exact hv2⟩
  · intro g2
    by_cases hc1 : g2 = f + 1
    · rw [hc1, hbf1]
      exact List.nodup_cons.mpr ⟨hknotb (f + 1) (by omega), h6 (f + 1)⟩
    · by_cases hc2 : g2 = f
      · rw [hc2, hbf]
        exact (lrem_sublist l k).nodup (hlval ▸ h6 f)
      · rw [hbo g2 hc2 hc1]
        exact h6 g2
  · intro he
    have hself := alook_aset_self s.cache_ k (v, f + 1)
    have he2 : aset s.cache_ k (v, f + 1) = [] := he
    rw [he2] at hself
    simp [alook] at hself
  · intro _
    show bGet (addToBucketHead (aset s.buckets f (lrem l k)) (f + 1) k)
        (if lrem l k = [] ∧ f = s.min_frequency_ then s.min_frequency_ + 1
         else s.min_frequency_) ≠ [] ∧
      ∀ g, g < (if lrem l k = [] ∧ f = s.min_frequency_ then
          s.min_frequency_ + 1 else s.min_frequency_) →
        bGet (addToBucketHead (aset s.buckets f (lrem l k)) (f + 1) k) g = []
    have hcne : s.cache_ ≠ [] := fun he => by
      rw [he] at hk
      simp [alook] at hk
    obtain ⟨hm1, hm2⟩ := h8 hcne
    have hmf : s.min_frequency_ ≤ f := by
      by_contra hlt
      push_neg at hlt
      have hf0 := hm2 f hlt
      rw [hlval] at hf0
      rw [hf0] at hkb
      exact List.not_mem_nil k hkb
    by_cases hcase : lrem l k = [] ∧ f = s.min_frequency_
    · rw [if_pos hcase]
      obtain ⟨hl0, hfm⟩ := hcase
      constructor
      · rw [← hfm, hbf1]
        simp
      · intro g hg
        by_cases hgf : g = f
        · subst hgf
          rw [hbf]
          exact hl0
        · rw [hbo g hgf (by omega)]
          apply hm2
          omega
    · rw [if_neg hcase]
      constructor
      · by_cases hfm : f = s.min_frequency_
        · have hlr : lrem l k ≠ [] := fun he => hcase ⟨he, hfm⟩
          rw [← hfm, hbf]
          exact hlr
        · rw [hbo _ (fun he => hfm he.symm) (by omega)]
          exact hm1
      · intro g hg
        rw [hbo g (by omega) (by omega)]
        exact hm2 g hg

theorem alook_aerase_self {K V : Type} [DecidableEq K]
    {l : List (K × V)} (h : (akeys l).Nodup) (k : K) :
    alook (aerase l k) k = none := by
  rw [alook_eq_none_iff]
  exact not_mem_akeys_aerase h k

theorem lfu_bucket_zero {K V : Type} [DecidableEq K] {s : LfuSt K V}
    (h4 : ∀ k v f, alook s.cache_ k = some (v, f) → 1 ≤ f ∧ k ∈ bGet s.buckets f)
    (h5 : ∀ f k, k ∈ bGet s.buckets f → ∃ v, alook s.cache_ k = some (v, f)) :
    bGet s.buckets 0 = [] := by
  rcases hb : bGet s.buckets 0 with _ | ⟨x, xs⟩
  · rfl
  · exfalso
    have hx : x ∈ bGet s.buckets 0 := by
      rw [hb]
      exact List.mem_cons_self _ _
    obtain ⟨v2, hv2⟩ := h5 0 x hx
    have := (h4 x v2 0 hv2).1
    omega

theorem lfuInv_aset_value {K V : Type} [DecidableEq K] {s : LfuSt K V}
    {k : K} {v0 v : V} {f : Nat} (h : LfuInv s)
    (hk : alook s.cache_ k = some (v0, f)) :
    LfuInv { s with cache_ := aset s.cache_ k (v, f) } := by
  obtain ⟨hcap, hnd, hlen, h4, h5, h6, h7, h8⟩ := h
  have hkmem : k ∈ akeys s.cache_ := alook_isSome_iff.mp (by simp [hk])
  refine ⟨hcap, ?_, ?_, ?_, ?_, h6, ?_, ?_⟩
  · show (akeys (aset s.cache_ k (v, f))).Nodup
    rw [akeys_aset_of_mem _ hkmem]
    exact hnd
  · show (aset s.cache_ k (v, f)).length ≤ s.capacity_
    rw [length_aset_of_mem _ hkmem]
    exact hlen
  · intro k2 v2 g2 hlook
    by_cases hk2 : k2 = k
    · rw [hk2] at hlook
      rw [hk2]
      rw [alook_aset_self] at hlook
      injection hlook with he
      injection he with he1 he2
      obtain ⟨hf1, hkb⟩ := h4 k v0 f hk
      rw [← he2]
      exact ⟨hf1, hkb⟩
    · rw [alook_aset_ne _ hk2] at hlook
      exact h4 k2 v2 g2 hlook
  · intro g2 k2 hm
    by_cases hk2 : k2 = k
    · rw [hk2] at hm
      rw [hk2]
      have hg2 : g2 = f := lfu_bucket_freq h5 hk hm
      exact ⟨v, by rw [hg2]; exact alook_aset_self _ _ _⟩
    · obtain ⟨v2, hv2⟩ := h5 g2 k2 hm
      exact ⟨v2, by rw [alook_aset_ne _ hk2]; exact hv2⟩
  · intro he
    have hself := alook_aset_self s.cache_ k (v, f)
    have he2 : aset s.cache_ k (v, f) = [] := he
    rw [he2] at hself
    simp [alook] at hself
  · intro _
    have hcne : s.cache_ ≠ [] := fun he => by
      rw [he] at hk
      simp [alook] at hk
    exact h8 hcne

theorem lfuInv_put_new {K V : Type} [DecidableEq K] {s : LfuSt K V} {k : K}
    {v : V} (h : LfuInv s) (hk : alook s.cache_ k = none) :
    LfuInv (lfuPut s k v) := by
  obtain ⟨hcap, hnd, hlen, h4, h5, h6, h7, h8⟩ := h
  have hcap0 : ¬ s.capacity_ = 0 := by omega
  have hknotmem : k ∉ akeys s.cache_ := alook_eq_none_iff.mp hk
  have hknotb : ∀ g, k ∉ bGet s.buckets g := fun g => lfu_not_in_bucket h5 hk g
  have hb0 : bGet s.buckets 0 = [] := lfu_bucket_zero h4 h5
  by_cases hfull : s.capacity_ ≤ s.cache_.length
  · have hcne : s.cache_ ≠ [] := by
      intro he
      rw [he] at hfull
      simp at hfull
      omega
    obtain ⟨hm1, hm2⟩ := h8 hcne
    rcases hbm : alook s.buckets s.min_frequency_ with _ | l
    · exact absurd (by simp [bGet, hbm]) hm1
    have hlval : bGet s.buckets s.min_frequency_ = l := bGet_eq_of_alook hbm
    have hlne : l ≠ [] := hlval ▸ hm1
    rcases hjl : l.getLast? with _ | j
    · exact absurd (List.getLast?_eq_none_iff.mp hjl) hlne
    have hjmem : j ∈ l := getLast?_mem_of_eq hjl
    obtain ⟨vj, hvj⟩ := h5 s.min_frequency_ j (by rw [hlval]; exact hjmem)
    have hjkeys : j ∈ akeys s.cache_ := alook_isSome_iff.mp (by simp [hvj])
    have hmpos : 1 ≤ s.min_frequency_ := (h4 j vj _ hvj).1
    have hkj : k ≠ j := fun he => hknotmem (he ▸ hjkeys)
    have hlnd : l.Nodup := hlval ▸ h6 s.min_frequency_
    have hknl : k ∉ l.dropLast := fun hm2' =>
      hknotb s.min_frequency_
        (by rw [hlval]; exact (List.dropLast_sublist l).subset hm2')
    have hevict : lfuEvictLFU s =
        (some j,
         { s with buckets := aset s.buckets s.min_frequency_ l.dropLast }) := by
      simp [lfuEvictLFU, hbm, hjl]
    have hstate : lfuPut s k v =
        { s with
          cache_ := aset (aerase s.cache_ j) k (v, 1),
          buckets := addToBucketHead
            (aset s.buckets s.min_frequency_ l.dropLast) 1 k,
          min_frequency_ := 1 } := by
      simp [lfuPut, hcap0, hk, hfull, hevict]
    rw [hstate]
    have hkne2 : k ∉ akeys (aerase s.cache_ j) := fun hm' =>
      hknotmem (((aerase_sublist s.cache_ j).map Prod.fst).subset hm')
    have hB2g : ∀ g, bGet (aset s.buckets s.min_frequency_ l.dropLast) g =
        if g = s.min_frequency_ then l.dropLast else bGet s.buckets g := by
      intro g
      by_cases hg : g = s.min_frequency_
      · rw [if_pos hg, hg, bGet_aset_self]
      · rw [if_neg hg, bGet_aset_ne _ hg]
    have hBg : ∀ g,
        bGet (addToBucketHead (aset s.buckets s.min_frequency_ l.dropLast) 1 k)
          g =
        if g = 1 then
          k :: bGet (aset s.buckets s.min_frequency_ l.dropLast) g
        else bGet (aset s.buckets s.min_frequency_ l.dropLast) g := by
      intro g
      by_cases hg : g = 1
      · rw [if_pos hg, hg, bGet_add_self]
      · rw [if_neg hg, bGet_add_ne _ hg]
    refine ⟨hcap, ?_, ?_, ?_, ?_, ?_, ?_, ?_⟩
    · show (akeys (aset (aerase s.cache_ j) k (v, 1))).Nodup
      rw [akeys_aset_of_not_mem _ hkne2]
      refine List.nodup_append.mpr
        ⟨nodup_akeys_aerase hnd j, List.nodup_singleton _, ?_⟩
      intro a ha hb
      exact hkne2 (List.mem_singleton.mp hb ▸ ha)
    · show (aset (aerase s.cache_ j) k (v, 1)).length ≤ s.capacity_
      rw [length_aset_of_not_mem _ hkne2]
      have hlj := length_aerase_of_mem hjkeys
      omega
    · intro k2 v2 g2 hlook
      by_cases hk2 : k2 = k
      · rw [hk2] at hlook
        rw [hk2]
        rw [alook_aset_self] at hlook
        injection hlook with he
        injection he with he1 he2
        refine ⟨by omega, ?_⟩
        rw [← he2, hBg 1, if_pos rfl]
        exact List.mem_cons_self _ _
      · rw [alook_aset_ne _ hk2] at hlook
        have hk2j : k2 ≠ j := by
          intro he
          rw [he, alook_aerase_self hnd] at hlook
          cases hlook
        rw [alook_aerase_ne hk2j] at hlook
        obtain ⟨hg1, hgb⟩ := h4 k2 v2 g2 hlook
        refine ⟨hg1, ?_⟩
        rw [hBg g2, hB2g g2]
        by_cases hgm : g2 = s.min_frequency_
        · have hk2l : k2 ∈ l := by
            rw [← hlval, ← hgm]
            exact hgb
          have hmemd : k2 ∈ l.dropLast := mem_dropLast_of_ne hjl hk2l hk2j
          by_cases hg1' : g2 = 1
          · rw [if_pos hg1', if_pos hgm]
            exact List.mem_cons_of_mem _ hmemd
          · rw [if_neg hg1', if_pos hgm]
            exact hmemd
        · by_cases hg1' : g2 = 1
          · rw [if_pos hg1', if_neg hgm]
            exact List.mem_cons_of_mem _ hgb
          · rw [if_neg hg1', if_neg hgm]
            exact hgb
    · intro g2 k2 hm
      rw [hBg g2, hB2g g2] at hm
      by_cases hk2 : k2 = k
      · by_cases hg1' : g2 = 1
        · rw [hk2, hg1']
          exact ⟨v, alook_aset_self _ _ _⟩
        · exfalso
          rw [if_neg hg1'] at hm
          by_cases hgm : g2 = s.min_frequency_
          · rw [if_pos hgm] at hm
            exact hknl (hk2 ▸ hm)
          · rw [if_neg hgm] at hm
            exact hknotb g2 (hk2 ▸ hm)
      · by_cases hgm : g2 = s.min_frequency_
        · have hmd : k2 ∈ l.dropLast := by
            by_cases hg1' : g2 = 1
            · rw [if_pos hg1', if_pos hgm] at hm
              rcases List.mem_cons.mp hm with he | h2
              · exact absurd he hk2
              · exact h2
            · rw [if_neg hg1', if_pos hgm] at hm
              exact hm
          have hk2j : k2 ≠ j := ne_getLast_of_mem_dropLast hlnd hjl hmd
          have hk2l : k2 ∈ l := (List.dropLast_sublist l).subset hmd
          obtain ⟨v2, hv2⟩ := h5 s.min_frequency_ k2 (by rw [hlval]; exact hk2l)
          refine ⟨v2, ?_⟩
          rw [alook_aset_ne _ hk2, alook_aerase_ne hk2j, hgm]
          exact hv2
        · have hmb : k2 ∈ bGet s.buckets g2 := by
            by_cases hg1' : g2 = 1
            · rw [if_pos hg1', if_neg hgm] at hm
              rcases List.mem_cons.mp hm with he | h2
              · exact absurd he hk2
              · exact h2
            · rw [if_neg hg1', if_neg hgm] at hm
              exact hm
          obtain ⟨v2, hv2⟩ := h5 g2 k2 hmb
          have hk2j : k2 ≠ j := by
            intro he
            rw [he, hvj] at hv2
            injection hv2 with hp
            injection hp with _ hp2
            exact hgm hp2.symm
          exact ⟨v2, by rw [alook_aset_ne _ hk2, alook_aerase_ne hk2j]; exact hv2⟩
    · intro g2
      rw [hBg g2, hB2g g2]
      by_cases hgm : g2 = s.min_frequency_
      · by_cases hg1' : g2 = 1
        · rw [if_pos hg1', if_pos hgm]
          exact List.nodup_cons.mpr ⟨hknl, (List.dropLast_sublist l).nodup hlnd⟩
        · rw [if_neg hg1', if_pos hgm]
          exact (List.dropLast_sublist l).nodup hlnd
      · by_cases hg1' : g2 = 1
        · rw [if_pos hg1', if_neg hgm]
          exact List.nodup_cons.mpr ⟨hknotb g2, h6 g2⟩
        · rw [if_neg hg1', if_neg hgm]
          exact h6 g2
    · intro _
      rfl
    · intro _
      constructor
      · rw [hBg 1, if_pos rfl]
        simp
      · intro g hg
        have hg1 : g < 1 := hg
        have hg0 : g = 0 := by omega
        rw [hg0, hBg 0, hB2g 0,
          if_neg (by omega : (0 : Nat) ≠ 1),
          if_neg (by omega : ¬ (0 : Nat) = s.min_frequency_)]
        exact hb0
  · have hstate : lfuPut s k v =
        { s with
          cache_ := aset s.cache_ k (v, 1),
          buckets := addToBucketHead s.buckets 1 k,
          min_frequency_ := 1 } := by
      simp [lfuPut, hcap0, hk, hfull]
    rw [hstate]
    have hBg : ∀ g, bGet (addToBucketHead s.buckets 1 k) g =
        if g = 1 then k :: bGet s.buckets g else bGet s.buckets g := by
      intro g
      by_cases hg : g = 1
      · rw [if_pos hg, hg, bGet_add_self]
      · rw [if_neg hg, bGet_add_ne _ hg]
    refine ⟨hcap, ?_, ?_, ?_, ?_, ?_, ?_, ?_⟩
    · show (akeys (aset s.cache_ k (v, 1))).Nodup
      rw [akeys_aset_of_not_mem _ hknotmem]
      refine List.nodup_append.mpr ⟨hnd, List.nodup_singleton _, ?_⟩
      intro a ha hb
      exact hknotmem (List.mem_singleton.mp hb ▸ ha)
    · show (aset s.cache_ k (v, 1)).length ≤ s.capacity_
      rw [length_aset_of_not_mem _ hknotmem]
      omega
    · intro k2 v2 g2 hlook
      by_cases hk2 : k2 = k
      · rw [hk2] at hlook
        rw [hk2]
        rw [alook_aset_self] at hlook
        injection hlook with he
        injection he with he1 he2
        refine ⟨by omega, ?_⟩
        rw [← he2, hBg 1, if_pos rfl]
        exact List.mem_cons_self _ _
      · rw [alook_aset_ne _ hk2] at hlook
        obtain ⟨hg1, hgb⟩ := h4 k2 v2 g2 hlook
        refine ⟨hg1, ?_⟩
        rw [hBg g2]
        by_cases hg1' : g2 = 1
        · rw [if_pos hg1']
          exact List.mem_cons_of_mem _ hgb
        · rw [if_neg hg1']
          exact hgb
    · intro g2 k2 hm
      rw [hBg g2] at hm
      by_cases hk2 : k2 = k
      · by_cases hg1' : g2 = 1
        · rw [hk2, hg1']
          exact ⟨v, alook_aset_self _ _ _⟩
        · exfalso
          rw [if_neg hg1'] at hm
          exact hknotb g2 (hk2 ▸ hm)
      · have hmb : k2 ∈ bGet s.buckets g2 := by
          by_cases hg1' : g2 = 1
          · rw [if_pos hg1'] at hm
            rcases List.mem_cons.mp hm with he | h2
            · exact absurd he hk2
            · exact h2
          · rw [if_neg hg1'] at hm
            exact hm
        obtain ⟨v2, hv2⟩ := h5 g2 k2 hmb
        exact ⟨v2, by rw [alook_aset_ne _ hk2]; exact hv2⟩
    · intro g2
      rw [hBg g2]
      by_cases hg1' : g2 = 1
      · rw [if_pos hg1']
        exact List.nodup_cons.mpr ⟨hknotb g2, h6 g2⟩
      · rw [if_neg hg1']
        exact h6 g2
    · intro _
      rfl
    · intro _
      constructor
      · rw [hBg 1, if_pos rfl]
        simp
      · intro g hg
        have hg1 : g < 1 := hg
        have hg0 : g = 0 := by omega
        rw [hg0, hBg 0, if_neg (by omega : (0 : Nat) ≠ 1)]
        exact hb0

theorem lfuInv_init {K V : Type} [DecidableEq K] {c : Nat} (hc : 0 < c) :
    LfuInv (lfuInit c : LfuSt K V) := by
  refine ⟨hc, by simp [lfuInit, akeys], by simp [lfuInit], ?_, ?_, ?_, ?_, ?_⟩
  · intro k v f hlook
    simp [lfuInit, alook] at hlook
  · intro f k hm
    simp [lfuInit, bGet, alook] at hm
  · intro f
    simp [lfuInit, bGet, alook]
  · intro _
    rfl
  · intro hne
    exact absurd rfl hne

theorem lfuInv_step {K V : Type} [DecidableEq K] {s : LfuSt K V}
    (h : LfuInv s) (op : Op K V) : LfuInv (lfuStep s op) := by
  cases op with
  | get k =>
    show LfuInv (lfuGet s k).2
    rcases hk : alook s.cache_ k with _ | vf
    · have hstate : (lfuGet s k).2 = s := by simp [lfuGet, hk]
      rw [hstate]
      exact h
    · obtain ⟨v, f⟩ := vf
      have hstate : (lfuGet s k).2 = lfuUpdateFrequency s k v f := by
        simp [lfuGet, hk]
      rw [hstate]
      exact lfuInv_updateFrequency h hk
  | put k v =>
    show LfuInv (lfuPut s k v)
    have hcap0 : ¬ s.capacity_ = 0 := by
      have := h.1
      omega
    rcases hk : alook s.cache_ k with _ | vf
    · exact lfuInv_put_new h hk
    · obtain ⟨v0, f⟩ := vf
      have hstate : lfuPut s k v =
          lfuUpdateFrequency { s with cache_ := aset s.cache_ k (v, f) } k v
            f := by
        simp [lfuPut, hcap0, hk]
      rw [hstate]
      exact lfuInv_updateFrequency (lfuInv_aset_value h hk)
        (alook_aset_self _ _ _)
  | contains k => exact h
  | clear =>
    show LfuInv (lfuClear s)
    obtain ⟨hcap, _⟩ := h
    refine ⟨hcap, by simp [lfuClear, akeys], by simp [lfuClear], ?_, ?_, ?_,
      ?_, ?_⟩
    · intro k v f hlook
      simp [lfuClear, alook] at hlook
    · intro f k hm
      simp [lfuClear, bGet, alook] at hm
    · intro f
      simp [lfuClear, bGet, alook]
    · intro _
      rfl
    · intro hne
      exact absurd rfl hne

theorem lfuInv_run {K V : Type} [DecidableEq K] {s : LfuSt K V}
    (h : LfuInv s) (ops : List (Op K V)) : LfuInv (lfuRun s ops) := by
  induction ops generalizing s with
  | nil => exact h
  | cons op t ih => exact ih (lfuInv_step h op)

theorem lfuUpdateFrequency_capacity {K V : Type} [DecidableEq K]
    (s : LfuSt K V) (k : K) (v : V) (f : Nat) :
    (lfuUpdateFrequency s k v f).capacity_ = s.capacity_ := by
  rcases hb : alook s.buckets f with _ | l <;> simp [lfuUpdateFrequency, hb]

theorem lfuEvictLFU_capacity {K V : Type} [DecidableEq K] (s : LfuSt K V) :
    (lfuEvictLFU s).2.capacity_ = s.capacity_ := by
  rcases hbm : alook s.buckets s.min_frequency_ with _ | l
  · simp [lfuEvictLFU, hbm]
  · rcases hjl : l.getLast? with _ | j <;> simp [lfuEvictLFU, hbm, hjl]

theorem lfuStep_capacity {K V : Type} [DecidableEq K] (s : LfuSt K V)
    (op : Op K V) : (lfuStep s op).capacity_ = s.capacity_ := by
  cases op with
  | get k =>
    show (lfuGet s k).2.capacity_ = _
    rcases hk : alook s.cache_ k with _ | vf
    · simp [lfuGet, hk]
    · obtain ⟨v, f⟩ := vf
      have hstate : (lfuGet s k).2 = lfuUpdateFrequency s k v f := by
        simp [lfuGet, hk]
      rw [hstate, lfuUpdateFrequency_capacity]
  | put k v =>
    show (lfuPut s k v).capacity_ = _
    by_cases hcap0 : s.capacity_ = 0
    · simp [lfuPut, hcap0]
    · rcases hk : alook s.cache_ k with _ | vf
      · by_cases hfull : s.capacity_ ≤ s.cache_.length
        · rcases hev : lfuEvictLFU s with ⟨jopt, s'⟩
          have hc : s'.capacity_ = s.capacity_ := by
            have h2 := lfuEvictLFU_capacity s
            rw [hev] at h2
            exact h2
          rcases jopt with _ | j <;> simp [lfuPut, hcap0, hk, hfull, hev, hc]
        · simp [lfuPut, hcap0, hk, hfull]
      · obtain ⟨v0, f⟩ := vf
        have hstate : lfuPut s k v =
            lfuUpdateFrequency { s with cache_ := aset s.cache_ k (v, f) } k v
              f := by
          simp [lfuPut, hcap0, hk]
        rw [hstate, lfuUpdateFrequency_capacity]
  | contains k => rfl
  | clear => rfl

theorem lfuRun_capacity {K V : Type} [DecidableEq K] (s : LfuSt K V)
    (ops : List (Op K V)) : (lfuRun s ops).capacity_ = s.capacity_ := by
  induction ops generalizing s with
  | nil => rfl
  | cons op t ih => rw [lfuRun, List.foldl_cons, ← lfuRun, ih, lfuStep_capacity]

/-! ### Invariants of the LRU-K engine -/

theorem lrukRecordHistory_cache {K V : Type} [DecidableEq K] (s : LruKSt K V)
    (k : K) : (lrukRecordHistory s k).cache_ = s.cache_ := by
  rcases hk : alook s.history_ k with _ | ts <;> simp [lrukRecordHistory, hk]

theorem lrukRecordHistory_capacity {K V : Type} [DecidableEq K]
    (s : LruKSt K V) (k : K) :
    (lrukRecordHistory s k).capacity_ = s.capacity_ := by
  rcases hk : alook s.history_ k with _ | ts <;> simp [lrukRecordHistory, hk]

theorem lrukRecordHistory_k {K V : Type} [DecidableEq K] (s : LruKSt K V)
    (k : K) : (lrukRecordHistory s k).k_ = s.k_ := by
  rcases hk : alook s.history_ k with _ | ts <;> simp [lrukRecordHistory, hk]

theorem alook_lrukRecordHistory_ne {K V : Type} [DecidableEq K]
    (s : LruKSt K V) {k j : K} (h : k ≠ j) :
    alook (lrukRecordHistory s j).history_ k = alook s.history_ k := by
  rcases hj : alook s.history_ j with _ | ts
  · simp only [lrukRecordHistory, hj]
    rw [alook_append]
    rcases hk : alook s.history_ k with _ | ts2 <;> simp [hk, alook, h]
  · simp only [lrukRecordHistory, hj]
    rw [alook_aset_ne _ h]

theorem akeys_lrukRecordHistory {K V : Type} [DecidableEq K] (s : LruKSt K V)
    (k : K) (h : (akeys s.history_).Nodup) :
    (akeys (lrukRecordHistory s k).history_).Nodup := by
  rcases hk : alook s.history_ k with _ | ts
  · have hnm : k ∉ akeys s.history_ := alook_eq_none_iff.mp hk
    simp only [lrukRecordHistory, hk]
    rw [akeys_append]
    refine List.nodup_append.mpr ⟨h, by simp [akeys], ?_⟩
    intro a ha hb
    rw [akeys_cons, akeys_nil] at hb
    rcases List.mem_singleton.mp hb with rfl
    exact hnm ha
  · have hm : k ∈ akeys s.history_ := alook_isSome_iff.mp (by simp [hk])
    simp only [lrukRecordHistory, hk]
    rw [akeys_aset_of_mem _ hm]
    exact h

theorem lruKInv_step {K V : Type} [DecidableEq K] {s : LruKSt K V}
    (h : LruKInv s) (op : Op K V) : LruKInv (lrukStep s op) := by
  obtain ⟨hcap, hkpos, hhnd, hcnd⟩ := h
  cases op with
  | get k =>
    show LruKInv (lrukGet s k).2
    rcases hk : alook s.cache_ k with _ | r
    · have hstate : (lrukGet s k).2 = s := by simp [lrukGet, hk]
      rw [hstate]
      exact ⟨hcap, hkpos, hhnd, hcnd⟩
    · have hm : k ∈ akeys s.cache_ := alook_isSome_iff.mp (by simp [hk])
      have hstate : (lrukGet s k).2 =
          { s with cache_ := aset s.cache_ k (recTouch s.k_ s.clock r),
                   clock := s.clock + 1 } := by
        simp [lrukGet, hk]
      rw [hstate]
      refine ⟨hcap, hkpos, hhnd, ?_⟩
      show (akeys (aset s.cache_ k (recTouch s.k_ s.clock r))).Nodup
      rw [akeys_aset_of_mem _ hm]
      exact hcnd
  | put k v =>
    show LruKInv (lrukPut s k v)
    rcases hk : alook s.cache_ k with _ | r
    · have hrec : LruKInv (lrukRecordHistory s k) := by
        rcases hh : alook s.history_ k with _ | ts <;>
          exact ⟨by rw [lrukRecordHistory_capacity]; exact hcap,
            by rw [lrukRecordHistory_k]; exact hkpos,
            akeys_lrukRecordHistory s k hhnd,
            by rw [lrukRecordHistory_cache]; exact hcnd⟩
      obtain ⟨hcap1, hkpos1, hhnd1, hcnd1⟩ := hrec
      have hpromote : ∀ s2 : LruKSt K V, (akeys s2.history_).Nodup →
          (akeys s2.cache_).Nodup → s2.capacity_ = s.capacity_ →
          s2.k_ = s.k_ → LruKInv (lrukPromote s2 k v) := by
        intro s2 hh2 hc2 hcs hks
        rcases hh3 : alook s2.history_ k with _ | ts2
        · have hstate2 : lrukPromote s2 k v = s2 := by
            simp [lrukPromote, hh3]
          rw [hstate2]
          exact ⟨by rw [hcs]; exact hcap, by rw [hks]; exact hkpos, hh2, hc2⟩
        · have hstate2 : lrukPromote s2 k v =
              { s2 with cache_ := aset s2.cache_ k ⟨v, ts2⟩,
                        history_ := aerase s2.history_ k } := by
            simp [lrukPromote, hh3]
          rw [hstate2]
          refine ⟨?_, ?_, ?_, ?_⟩
          · show 0 < s2.capacity_
            rw [hcs]
            exact hcap
          · show 0 < s2.k_
            rw [hks]
            exact hkpos
          · show (akeys (aerase s2.history_ k)).Nodup
            exact nodup_akeys_aerase hh2 k
          · show (akeys (aset s2.cache_ k ⟨v, ts2⟩)).Nodup
            by_cases hmem : k ∈ akeys s2.cache_
            · rw [akeys_aset_of_mem _ hmem]
              exact hc2
            · rw [akeys_aset_of_not_mem _ hmem]
              refine List.nodup_append.mpr ⟨hc2, by simp, ?_⟩
              intro a ha hb
              rcases List.mem_singleton.mp hb with rfl
              exact hmem ha
      rcases hh1 : alook (lrukRecordHistory s k).history_ k with _ | ts1
      · have hstate : lrukPut s k v = lrukRecordHistory s k := by
          simp [lrukPut, hk, hh1]
        rw [hstate]
        exact ⟨hcap1, hkpos1, hhnd1, hcnd1⟩
      · by_cases hlen : (lrukRecordHistory s k).k_ ≤ ts1.length
        · by_cases hfull :
              (lrukRecordHistory s k).capacity_ ≤
                (lrukRecordHistory s k).cache_.length
          · rcases hv : lrukFindVictim (lrukRecordHistory s k) with _ | j
            · have hstate : lrukPut s k v = lrukRecordHistory s k := by
                simp [lrukPut, hk, hh1, hlen, hfull, hv]
              rw [hstate]
              exact ⟨hcap1, hkpos1, hhnd1, hcnd1⟩
            · by_cases hjc : (alook (lrukRecordHistory s k).cache_ j).isSome
              · have hstate : lrukPut s k v =
                    lrukPromote
                      { lrukRecordHistory s k with
                        cache_ := aerase (lrukRecordHistory s k).cache_ j } k
                      v := by
                  simp [lrukPut, hk, hh1, hlen, hfull, hv, hjc]
                rw [hstate]
                refine hpromote _ hhnd1 (nodup_akeys_aerase hcnd1 j) ?_ ?_
                · show (lrukRecordHistory s k).capacity_ = s.capacity_
                  exact lrukRecordHistory_capacity s k
                · show (lrukRecordHistory s k).k_ = s.k_
                  exact lrukRecordHistory_k s k
              · have hstate : lrukPut s k v =
                    lrukPromote
                      { lrukRecordHistory s k with
                        history_ :=
                          aerase (lrukRecordHistory s k).history_ j } k v := by
                  simp [lrukPut, hk, hh1, hlen, hfull, hv, hjc]
                rw [hstate]
                refine hpromote _ (nodup_akeys_aerase hhnd1 j) hcnd1 ?_ ?_
                · show (lrukRecordHistory s k).capacity_ = s.capacity_
                  exact lrukRecordHistory_capacity s k
                · show (lrukRecordHistory s k).k_ = s.k_
                  exact lrukRecordHistory_k s k
          · have hstate : lrukPut s k v =
                lrukPromote (lrukRecordHistory s k) k v := by
              simp [lrukPut, hk, hh1, hlen, hfull]
            rw [hstate]
            exact hpromote _ hhnd1 hcnd1 (lrukRecordHistory_capacity s k)
              (lrukRecordHistory_k s k)
        · have hstate : lrukPut s k v = lrukRecordHistory s k := by
            simp [lrukPut, hk, hh1, hlen]
          rw [hstate]
          exact ⟨hcap1, hkpos1, hhnd1, hcnd1⟩
    · have hm : k ∈ akeys s.cache_ := alook_isSome_iff.mp (by simp [hk])
      have hstate : lrukPut s k v =
          { s with
            cache_ :=
              aset s.cache_ k (recTouch s.k_ s.clock { r with value := v }),
            clock := s.clock + 1 } := by
        simp [lrukPut, hk]
      rw [hstate]
      refine ⟨hcap, hkpos, hhnd, ?_⟩
      show (akeys (aset s.cache_ k
          (recTouch s.k_ s.clock { r with value := v }))).Nodup
      rw [akeys_aset_of_mem _ hm]
      exact hcnd
  | contains k => exact ⟨hcap, hkpos, hhnd, hcnd⟩
  | clear =>
    show LruKInv (lrukClear s)
    exact ⟨hcap, hkpos, by simp [lrukClear, akeys], by simp [lrukClear, akeys]⟩

theorem lruKInv_init {K V : Type} [DecidableEq K] {c kk : Nat} (hc : 0 < c)
    (hkk : 0 < kk) : LruKInv (lrukInit c kk : LruKSt K V) :=
  ⟨hc, hkk, by simp [lrukInit, akeys], by simp [lrukInit, akeys]⟩

theorem lruKInv_run {K V : Type} [DecidableEq K] {s : LruKSt K V}
    (h : LruKInv s) (ops : List (Op K V)) : LruKInv (lrukRun s ops) := by
  induction ops generalizing s with
  | nil => exact h
  | cons op t ih => exact ih (lruKInv_step h op)

/-! ### Helper lemmas for the claim theorems -/

theorem lfuPut_new_min {K V : Type} [DecidableEq K] {s : LfuSt K V} {k : K}
    (v : V) (hcap0 : ¬ s.capacity_ = 0) (hk : alook s.cache_ k = none) :
    (lfuPut s k v).min_frequency_ = 1 := by
  by_cases hfull : s.capacity_ ≤ s.cache_.length
  · rcases hev : lfuEvictLFU s with ⟨jopt, s'⟩
    rcases jopt with _ | j <;> simp [lfuPut, hcap0, hk, hfull, hev]
  · simp [lfuPut, hcap0, hk, hfull]

theorem lfuGet_min_bump {K V : Type} [DecidableEq K] {s : LfuSt K V} {k : K}
    {v : V} {f : Nat} (hk : alook s.cache_ k = some (v, f))
    (hfm : f = s.min_frequency_) (hb : bGet s.buckets f = [k]) :
    (lfuGet s k).2.min_frequency_ = s.min_frequency_ + 1 := by
  subst hfm
  have hstate : (lfuGet s k).2 = lfuUpdateFrequency s k v s.min_frequency_ := by
    simp [lfuGet, hk]
  rw [hstate]
  have hbl : alook s.buckets s.min_frequency_ = some [k] := by
    have h1 := alook_of_bGet_ne_nil
      (show bGet s.buckets s.min_frequency_ ≠ [] by rw [hb]; simp)
    rw [hb] at h1
    exact h1
  have hlr : lrem [k] k = [] := by simp [lrem]
  simp [lfuUpdateFrequency, hbl, hlr]

/-! ### Claim theorems -/

/-- C9: on every engine, `get` on a key with no visible entry (absent from
the index; for LRU-K, possibly still in the unpromoted history stage) fails
with NotFound (modelled by the `none` result) and returns the state entirely
unchanged. -/
theorem spec_C9 {K V : Type} [DecidableEq K] :
    (∀ (s : LruSt K V) (k : K), alook s.order k = none →
      lruGet s k = (none, s)) ∧
    (∀ (s : FifoSt K V) (k : K), alook s.order k = none →
      fifoGet s k = (none, s)) ∧
    (∀ (s : LfuSt K V) (k : K), alook s.cache_ k = none →
      lfuGet s k = (none, s)) ∧
    (∀ (s : LruKSt K V) (k : K), alook s.cache_ k = none →
      lrukGet s k = (none, s)) := by
  refine ⟨?_, ?_, ?_, ?_⟩
  · intro s k hk
    simp [lruGet, hk]
  · intro s k hk
    simp [fifoGet, hk]
  · intro s k hk
    simp [lfuGet, hk]
  · intro s k hk
    simp [lrukGet, hk]

/-- Witness for C9 at concrete inputs. -/
theorem spec_C9_witness :
    lruGet (lruInit 1 : LruSt Nat Nat) 5 = (none, lruInit 1) ∧
    fifoGet (fifoInit 1 : FifoSt Nat Nat) 5 = (none, fifoInit 1) ∧
    lfuGet (lfuInit 1 : LfuSt Nat Nat) 5 = (none, lfuInit 1) ∧
    lrukGet (lrukInit 1 2 : LruKSt Nat Nat) 5 = (none, lrukInit 1 2) :=
  ⟨(spec_C9 (K := Nat) (V := Nat)).1 (lruInit 1) 5 (by decide),
   (spec_C9 (K := Nat) (V := Nat)).2.1 (fifoInit 1) 5 (by decide),
   (spec_C9 (K := Nat) (V := Nat)).2.2.1 (lfuInit 1) 5 (by decide),
   (spec_C9 (K := Nat) (V := Nat)).2.2.2 (lrukInit 1 2) 5 (by decide)⟩

/-- C1 (amended): for the LRU, FIFO and LFU engines, after every operation
sequence from a validly constructed engine, `size()` equals the number of
keys in the index and `size() ≤ capacity()`; for the LRU-K engine, `size()`
equals the promoted-table key count, but `size() ≤ capacity()` can fail
(see the counterexample): when a history record is chosen as the eviction
victim during a promotion, the promoted table grows past the capacity. -/
theorem spec_C1_amended {K V : Type} [DecidableEq K] (c : Nat) (hc : 0 < c) :
    (∀ ops : List (Op K V),
      lruSize (lruRun (lruInit c) ops) =
        (akeys (lruRun (lruInit c) ops).order).length ∧
      lruSize (lruRun (lruInit c) ops) ≤
        (lruRun (lruInit c) ops).capacity_) ∧
    (∀ ops : List (Op K V),
      fifoSize (fifoRun (fifoInit c) ops) =
        (akeys (fifoRun (fifoInit c) ops).order).length ∧
      fifoSize (fifoRun (fifoInit c) ops) ≤
        (fifoRun (fifoInit c) ops).capacity_) ∧
    (∀ ops : List (Op K V),
      lfuSize (lfuRun (lfuInit c) ops) =
        (akeys (lfuRun (lfuInit c) ops).cache_).length ∧
      lfuSize (lfuRun (lfuInit c) ops) ≤
        (lfuRun (lfuInit c) ops).capacity_) ∧
    (∀ (kk : Nat) (ops : List (Op K V)),
      lrukSize (lrukRun (lrukInit c kk) ops) =
        (akeys (lrukRun (lrukInit c kk) ops).cache_).length) := by
  refine ⟨?_, ?_, ?_, ?_⟩
  · intro ops
    obtain ⟨_, hsz, hle, _⟩ := lruInv_run (lruInv_init hc) ops
    constructor
    · show (lruRun (lruInit c) ops).size_ = _
      rw [hsz]
      simp [akeys]
    · show (lruRun (lruInit c) ops).size_ ≤ _
      rw [hsz]
      exact hle
  · intro ops
    obtain ⟨_, hsz, hle, _⟩ := fifoInv_run (fifoInv_init hc) ops
    constructor
    · show (fifoRun (fifoInit c) ops).size_ = _
      rw [hsz]
      simp [akeys]
    · show (fifoRun (fifoInit c) ops).size_ ≤ _
      rw [hsz]
      exact hle
  · intro ops
    obtain ⟨_, _, hle, _⟩ := lfuInv_run (lfuInv_init hc) ops
    exact ⟨by simp [lfuSize, akeys], hle⟩
  · intro kk ops
    simp [lrukSize, akeys]

/-- Witness for C1 at concrete inputs. -/
theorem spec_C1_witness :
    (lruSize (lruRun (lruInit 2 : LruSt Nat Nat) [Op.put 1 7]) =
        (akeys (lruRun (lruInit 2 : LruSt Nat Nat) [Op.put 1 7]).order).length ∧
      lruSize (lruRun (lruInit 2 : LruSt Nat Nat) [Op.put 1 7]) ≤
        (lruRun (lruInit 2 : LruSt Nat Nat) [Op.put 1 7]).capacity_) ∧
    (lrukSize (lrukRun (lrukInit 2 2 : LruKSt Nat Nat) [Op.put 1 7]) =
      (akeys (lrukRun (lrukInit 2 2 : LruKSt Nat Nat)
        [Op.put 1 7]).cache_).length) :=
  ⟨(spec_C1_amended (K := Nat) (V := Nat) 2 (by decide)).1 [Op.put 1 7],
   (spec_C1_amended (K := Nat) (V := Nat) 2 (by decide)).2.2.2 2 [Op.put 1 7]⟩

/-- C1 counterexample: on the LRU-K engine with capacity 1 and K = 2, after
the five puts below a promotion evicts the cold history record of key 3
instead of a promoted record, leaving `size() = 2 > 1 = capacity()`. -/
theorem spec_C1_counterexample :
    lrukSize (lrukRun (lrukInit 1 2 : LruKSt Nat Nat)
        [Op.put 1 0, Op.put 2 0, Op.put 3 0, Op.put 1 1, Op.put 2 1]) = 2 ∧
    (lrukRun (lrukInit 1 2 : LruKSt Nat Nat)
        [Op.put 1 0, Op.put 2 0, Op.put 3 0, Op.put 1 1, Op.put 2 1]).capacity_
      = 1 := by
  decide

/-- C4: in the LFU engine, after every operation `min_frequency_` equals the
smallest frequency with a non-empty bucket (1 when the cache is empty); an
access that empties the minimum bucket increments `min_frequency_`, and the
insertion of a new key resets `min_frequency_` to 1. -/
theorem spec_C4 {K V : Type} [DecidableEq K] (c : Nat) (hc : 0 < c)
    (ops : List (Op K V)) :
    ((lfuRun (lfuInit c) ops).cache_ = [] →
      (lfuRun (lfuInit c) ops).min_frequency_ = 1) ∧
    ((lfuRun (lfuInit c) ops).cache_ ≠ [] →
      bGet (lfuRun (lfuInit c) ops).buckets
          (lfuRun (lfuInit c) ops).min_frequency_ ≠ [] ∧
      ∀ f, f < (lfuRun (lfuInit c) ops).min_frequency_ →
        bGet (lfuRun (lfuInit c) ops).buckets f = []) ∧
    (∀ (k : K) (v : V), alook (lfuRun (lfuInit c) ops).cache_ k = none →
      (lfuPut (lfuRun (lfuInit c) ops) k v).min_frequency_ = 1) ∧
    (∀ (k : K) (v : V) (f : Nat),
      alook (lfuRun (lfuInit c) ops).cache_ k = some (v, f) →
      f = (lfuRun (lfuInit c) ops).min_frequency_ →
      bGet (lfuRun (lfuInit c) ops).buckets f = [k] →
      (lfuGet (lfuRun (lfuInit c) ops) k).2.min_frequency_ =
        (lfuRun (lfuInit c) ops).min_frequency_ + 1) := by
  obtain ⟨hcap, _, _, _, _, _, h7, h8⟩ := lfuInv_run (lfuInv_init hc) ops
  refine ⟨h7, h8, ?_, ?_⟩
  · intro k v hk
    exact lfuPut_new_min v (by omega) hk
  · intro k v f hk hfm hb
    exact lfuGet_min_bump hk hfm hb

/-- Witness for C4 at concrete inputs. -/
theorem spec_C4_witness :
    ((lfuRun (lfuInit 2 : LfuSt Nat Nat) [Op.put 1 7]).cache_ = [] →
      (lfuRun (lfuInit 2 : LfuSt Nat Nat) [Op.put 1 7]).min_frequency_ = 1) ∧
    ((lfuRun (lfuInit 2 : LfuSt Nat Nat) [Op.put 1 7]).cache_ ≠ [] →
      bGet (lfuRun (lfuInit 2 : LfuSt Nat Nat) [Op.put 1 7]).buckets
          (lfuRun (lfuInit 2 : LfuSt Nat Nat) [Op.put 1 7]).min_frequency_
        ≠ [] ∧
      ∀ f, f < (lfuRun (lfuInit 2 : LfuSt Nat Nat) [Op.put 1 7]).min_frequency_ →
        bGet (lfuRun (lfuInit 2 : LfuSt Nat Nat) [Op.put 1 7]).buckets f
          = []) ∧
    (∀ (k : Nat) (v : Nat),
      alook (lfuRun (lfuInit 2 : LfuSt Nat Nat) [Op.put 1 7]).cache_ k = none →
      (lfuPut (lfuRun (lfuInit 2 : LfuSt Nat Nat) [Op.put 1 7]) k
        v).min_frequency_ = 1) ∧
    (∀ (k : Nat) (v : Nat) (f : Nat),
      alook (lfuRun (lfuInit 2 : LfuSt Nat Nat) [Op.put 1 7]).cache_ k =
        some (v, f) →
      f = (lfuRun (lfuInit 2 : LfuSt Nat Nat) [Op.put 1 7]).min_frequency_ →
      bGet (lfuRun (lfuInit 2 : LfuSt Nat Nat) [Op.put 1 7]).buckets f = [k] →
      (lfuGet (lfuRun (lfuInit 2 : LfuSt Nat Nat) [Op.put 1 7])
          k).2.min_frequency_ =
        (lfuRun (lfuInit 2 : LfuSt Nat Nat) [Op.put 1 7]).min_frequency_ + 1) :=
  spec_C4 (K := Nat) (V := Nat) 2 (by decide) [Op.put 1 7]

theorem lruGet_head {K V : Type} [DecidableEq K] {s : LruSt K V} {k : K}
    {v : V} (hk : alook s.order k = some v) :
    (lruGet s k).2.order.head? = some (k, v) := by
  simp [lruGet, hk]

theorem lruPut_head_existing {K V : Type} [DecidableEq K] {s : LruSt K V}
    {k : K} {v0 v : V} (hk : alook s.order k = some v0) :
    (lruPut s k v).order.head? = some (k, v) := by
  simp [lruPut, hk]

theorem lruPut_evicts_tail {K V : Type} [DecidableEq K] {s : LruSt K V}
    (h : LruInv s) {k : K} (v : V) (hk : alook s.order k = none)
    (hfull : s.capacity_ ≤ s.size_) :
    ∃ j w, s.order.getLast? = some (j, w) ∧
      lruContains s j = true ∧
      lruContains (lruPut s k v) j = false ∧
      (lruPut s k v).order.head? = some (k, v) := by
  obtain ⟨hcap, hsz, hle, hnd⟩ := h
  have hne : s.order ≠ [] := by
    intro he
    rw [he] at hsz
    simp at hsz
    omega
  rcases hgl : s.order.getLast? with _ | p
  · exact absurd (List.getLast?_eq_none_iff.mp hgl) hne
  obtain ⟨j, w⟩ := p
  have hmem : (j, w) ∈ s.order := getLast?_mem_of_eq hgl
  have hjk : alook s.order j = some w := alook_of_mem_nodup hnd hmem
  have hcont : lruContains s j = true := by simp [lruContains, hjk]
  have horder : s.order.dropLast ++ [(j, w)] = s.order := by
    have h1 := List.dropLast_append_getLast hne
    have h2 : s.order.getLast hne = (j, w) := by
      rw [List.getLast?_eq_getLast _ hne] at hgl
      injection hgl
    rw [h2] at h1
    exact h1
  have hkeys : akeys s.order = akeys s.order.dropLast ++ [j] := by
    conv_lhs => rw [← horder]
    rw [akeys_append]
    simp [akeys]
  have hjnot : j ∉ akeys s.order.dropLast := by
    have hnd2 : (akeys s.order.dropLast ++ [j]).Nodup := by
      rw [← hkeys]
      exact hnd
    have hdisj := (List.nodup_append.mp hnd2).2.2
    intro hm
    exact hdisj hm (List.mem_singleton_self j)
  have hkj : j ≠ k := by
    intro he
    apply alook_eq_none_iff.mp hk
    rw [← he]
    exact List.mem_map_of_mem Prod.fst hmem
  have hstate : lruPut s k v =
      { s with order := (k, v) :: s.order.dropLast,
               size_ := s.size_ - 1 + 1 } := by
    simp [lruPut, hk, hfull]
  have hnone : alook s.order.dropLast j = none := alook_eq_none_iff.mpr hjnot
  refine ⟨j, w, rfl, hcont, ?_, by rw [hstate]; rfl⟩
  rw [hstate]
  show ((alook ((k, v) :: s.order.dropLast) j).isSome : Bool) = false
  simp [alook, hkj, hnone]

/-- C6: on the LRU engine, `get` and `put` on an existing key move the key's
node to the head of the recency list; a `put` of a new key at capacity first
removes the tail node (the least recently used key, gone afterwards) and
inserts the new node at the head.  Concretely, with capacity 3:
put 1, put 2, put 3, get 1, then put 4 evicts key 2 and leaves 1, 3, 4. -/
theorem spec_C6 {K V : Type} [DecidableEq K] (c : Nat) (hc : 0 < c)
    (ops : List (Op K V)) :
    (∀ (k : K) (v : V),
      alook (lruRun (lruInit c) ops).order k = some v →
      (lruGet (lruRun (lruInit c) ops) k).2.order.head? = some (k, v)) ∧
    (∀ (k : K) (v0 v : V),
      alook (lruRun (lruInit c) ops).order k = some v0 →
      (lruPut (lruRun (lruInit c) ops) k v).order.head? = some (k, v)) ∧
    (∀ (k : K) (v : V),
      alook (lruRun (lruInit c) ops).order k = none →
      (lruRun (lruInit c) ops).capacity_ ≤ lruSize (lruRun (lruInit c) ops) →
      ∃ j w, (lruRun (lruInit c) ops).order.getLast? = some (j, w) ∧
        lruContains (lruRun (lruInit c) ops) j = true ∧
        lruContains (lruPut (lruRun (lruInit c) ops) k v) j = false ∧
        (lruPut (lruRun (lruInit c) ops) k v).order.head? = some (k, v)) ∧
    (lruContains (lruRun (lruInit 3 : LruSt Nat Nat)
        [Op.put 1 1, Op.put 2 2, Op.put 3 3, Op.get 1, Op.put 4 4]) 2
        = false ∧
      lruContains (lruRun (lruInit 3 : LruSt Nat Nat)
        [Op.put 1 1, Op.put 2 2, Op.put 3 3, Op.get 1, Op.put 4 4]) 1
        = true ∧
      lruContains (lruRun (lruInit 3 : LruSt Nat Nat)
        [Op.put 1 1, Op.put 2 2, Op.put 3 3, Op.get 1, Op.put 4 4]) 3
        = true ∧
      lruContains (lruRun (lruInit 3 : LruSt Nat Nat)
        [Op.put 1 1, Op.put 2 2, Op.put 3 3, Op.get 1, Op.put 4 4]) 4
        = true) := by
  have hInv := lruInv_run (lruInv_init hc) ops
  refine ⟨?_, ?_, ?_, by decide⟩
  · intro k v hk
    exact lruGet_head hk
  · intro k v0 v hk
    exact lruPut_head_existing hk
  · intro k v hk hfull
    exact lruPut_evicts_tail hInv v hk hfull

/-- Witness for C6 at concrete inputs. -/
theorem spec_C6_witness :
    (∀ (k : Nat) (v : Nat),
      alook (lruRun (lruInit 2 : LruSt Nat Nat) [Op.put 1 7]).order k
        = some v →
      (lruGet (lruRun (lruInit 2 : LruSt Nat Nat) [Op.put 1 7])
        k).2.order.head? = some (k, v)) ∧
    (∀ (k : Nat) (v : Nat),
      alook (lruRun (lruInit 2 : LruSt Nat Nat) [Op.put 1 7]).order k = none →
      (lruRun (lruInit 2 : LruSt Nat Nat) [Op.put 1 7]).capacity_ ≤
        lruSize (lruRun (lruInit 2 : LruSt Nat Nat) [Op.put 1 7]) →
      ∃ j w,
        (lruRun (lruInit 2 : LruSt Nat Nat) [Op.put 1 7]).order.getLast?
          = some (j, w) ∧
        lruContains (lruRun (lruInit 2 : LruSt Nat Nat) [Op.put 1 7]) j
          = true ∧
        lruContains
          (lruPut (lruRun (lruInit 2 : LruSt Nat Nat) [Op.put 1 7]) k v) j
          = false ∧
        (lruPut (lruRun (lruInit 2 : LruSt Nat Nat) [Op.put 1 7])
          k v).order.head? = some (k, v)) :=
  ⟨(spec_C6 (K := Nat) (V := Nat) 2 (by decide) [Op.put 1 7]).1,
   (spec_C6 (K := Nat) (V := Nat) 2 (by decide) [Op.put 1 7]).2.2.1⟩

theorem fifoPut_existing {K V : Type} [DecidableEq K] {s : FifoSt K V}
    {k : K} {v0 : V} (v : V) (hk : alook s.order k = some v0) :
    akeys (fifoPut s k v).order = akeys s.order ∧
      alook (fifoPut s k v).order k = some v := by
  have hm : k ∈ akeys s.order := alook_isSome_iff.mp (by simp [hk])
  have hstate : fifoPut s k v = { s with order := aset s.order k v } := by
    simp [fifoPut, hk]
  rw [hstate]
  exact ⟨akeys_aset_of_mem _ hm, alook_aset_self _ _ _⟩


theorem fifoPut_evicts_head {K V : Type} [DecidableEq K] {s : FifoSt K V}
    (h : FifoInv s) {k : K} (v : V) (hk : alook s.order k = none)
    (hfull : s.capacity_ ≤ s.size_) :
    ∃ j w t2, s.order = (j, w) :: t2 ∧
      (fifoPut s k v).order = t2 ++ [(k, v)] ∧
      fifoContains s j = true ∧
      fifoContains (fifoPut s k v) j = false := by
  obtain ⟨hcap, hsz, hle, hnd⟩ := h
  have hne : s.order ≠ [] := by
    intro he
    rw [he] at hsz
    simp at hsz
    omega
  rcases horder : s.order with _ | ⟨p, t2⟩
  · exact absurd horder hne
  obtain ⟨j, w⟩ := p
  have hk2 : alook ((j, w) :: t2) k = none := by
    rw [← horder]
    exact hk
  have hnd2 : (akeys ((j, w) :: t2)).Nodup := by
    rw [← horder]
    exact hnd
  rw [akeys_cons] at hnd2
  obtain ⟨hjt, hndt⟩ := List.nodup_cons.mp hnd2
  have hkj : j ≠ k := by
    intro he
    rw [← he] at hk2
    simp [alook] at hk2
  have hstate : fifoPut s k v =
      { s with order := t2 ++ [(k, v)], size_ := s.size_ - 1 + 1 } := by
    simp [fifoPut, horder, hk2, hfull]
  have hjnone : alook t2 j = none := by
    rw [alook_eq_none_iff]
    exact hjt
  refine ⟨j, w, t2, rfl, by rw [hstate], ?_, ?_⟩
  · show ((alook s.order j).isSome : Bool) = true
    rw [horder]
    simp [alook]
  · rw [hstate]
    show ((alook (t2 ++ [(k, v)]) j).isSome : Bool) = false
    rw [alook_append]
    simp [hjnone, alook, hkj]

theorem fifoRun_get_replicate {K V : Type} [DecidableEq K] (s : FifoSt K V)
    (n : Nat) (j : K) :
    fifoRun s (List.replicate n (Op.get j)) = s := by
  induction n with
  | zero => rfl
  | succ m ih =>
    rw [List.replicate_succ]
    exact ih

/-- C7: on the FIFO engine, `get` and `contains` change nothing at all, a
`put` on an existing key replaces the value without moving the node, and a
capacity eviction always removes the head (the oldest inserted key).
Concretely, with capacity 3: put 1, put 2, put 3, any number of get 1, then
put 4 evicts key 1 and leaves 2, 3 and 4. -/
theorem spec_C7 {K V : Type} [DecidableEq K] (c : Nat) (hc : 0 < c)
    (ops : List (Op K V)) :
    (∀ (s : FifoSt K V) (k : K), (fifoGet s k).2 = s ∧
      fifoStep s (Op.contains k) = s ∧ (fifoGet s k).1 = alook s.order k) ∧
    (∀ (k : K) (v0 v : V),
      alook (fifoRun (fifoInit c) ops).order k = some v0 →
      akeys (fifoPut (fifoRun (fifoInit c) ops) k v).order =
        akeys (fifoRun (fifoInit c) ops).order ∧
      alook (fifoPut (fifoRun (fifoInit c) ops) k v).order k = some v) ∧
    (∀ (k : K) (v : V),
      alook (fifoRun (fifoInit c) ops).order k = none →
      (fifoRun (fifoInit c) ops).capacity_ ≤
        fifoSize (fifoRun (fifoInit c) ops) →
      ∃ j w t2, (fifoRun (fifoInit c) ops).order = (j, w) :: t2 ∧
        (fifoPut (fifoRun (fifoInit c) ops) k v).order = t2 ++ [(k, v)] ∧
        fifoContains (fifoRun (fifoInit c) ops) j = true ∧
        fifoContains (fifoPut (fifoRun (fifoInit c) ops) k v) j = false) ∧
    (∀ n : Nat,
      fifoContains (fifoRun (fifoInit 3 : FifoSt Nat Nat)
        (([Op.put 1 1, Op.put 2 2, Op.put 3 3] ++
          List.replicate n (Op.get 1)) ++ [Op.put 4 4])) 1 = false ∧
      fifoContains (fifoRun (fifoInit 3 : FifoSt Nat Nat)
        (([Op.put 1 1, Op.put 2 2, Op.put 3 3] ++
          List.replicate n (Op.get 1)) ++ [Op.put 4 4])) 2 = true ∧
      fifoContains (fifoRun (fifoInit 3 : FifoSt Nat Nat)
        (([Op.put 1 1, Op.put 2 2, Op.put 3 3] ++
          List.replicate n (Op.get 1)) ++ [Op.put 4 4])) 3 = true ∧
      fifoContains (fifoRun (fifoInit 3 : FifoSt Nat Nat)
        (([Op.put 1 1, Op.put 2 2, Op.put 3 3] ++
          List.replicate n (Op.get 1)) ++ [Op.put 4 4])) 4 = true) := by
  have hInv := fifoInv_run (fifoInv_init hc) ops
  refine ⟨?_, ?_, ?_, ?_⟩
  · intro s k
    exact ⟨rfl, rfl, rfl⟩
  · intro k v0 v hk
    exact fifoPut_existing v hk
  · intro k v hk hfull
    exact fifoPut_evicts_head hInv v hk hfull
  · intro n
    have hsplit : fifoRun (fifoInit 3 : FifoSt Nat Nat)
        (([Op.put 1 1, Op.put 2 2, Op.put 3 3] ++
          List.replicate n (Op.get 1)) ++ [Op.put 4 4]) =
        fifoRun (fifoRun (fifoRun (fifoInit 3)
          [Op.put 1 1, Op.put 2 2, Op.put 3 3])
          (List.replicate n (Op.get 1))) [Op.put 4 4] := by
      show List.foldl fifoStep _ _ = _
      rw [List.foldl_append, List.foldl_append]
      rfl
    rw [hsplit, fifoRun_get_replicate]
    decide

/-- Witness for C7 at concrete inputs. -/
theorem spec_C7_witness :
    (∀ (s : FifoSt Nat Nat) (k : Nat), (fifoGet s k).2 = s ∧
      fifoStep s (Op.contains k) = s ∧ (fifoGet s k).1 = alook s.order k) ∧
    (∀ n : Nat,
      fifoContains (fifoRun (fifoInit 3 : FifoSt Nat Nat)
        (([Op.put 1 1, Op.put 2 2, Op.put 3 3] ++
          List.replicate n (Op.get 1)) ++ [Op.put 4 4])) 1 = false ∧
      fifoContains (fifoRun (fifoInit 3 : FifoSt Nat Nat)
        (([Op.put 1 1, Op.put 2 2, Op.put 3 3] ++
          List.replicate n (Op.get 1)) ++ [Op.put 4 4])) 2 = true ∧
      fifoContains (fifoRun (fifoInit 3 : FifoSt Nat Nat)
        (([Op.put 1 1, Op.put 2 2, Op.put 3 3] ++
          List.replicate n (Op.get 1)) ++ [Op.put 4 4])) 3 = true ∧
      fifoContains (fifoRun (fifoInit 3 : FifoSt Nat Nat)
        (([Op.put 1 1, Op.put 2 2, Op.put 3 3] ++
          List.replicate n (Op.get 1)) ++ [Op.put 4 4])) 4 = true) :=
  ⟨(spec_C7 (K := Nat) (V := Nat) 3 (by decide) []).1,
   (spec_C7 (K := Nat) (V := Nat) 3 (by decide) []).2.2.2⟩

theorem lfuUpdateFrequency_cache {K V : Type} [DecidableEq K] (s : LfuSt K V)
    (k : K) (v : V) (f : Nat) :
    (lfuUpdateFrequency s k v f).cache_ = aset s.cache_ k (v, f + 1) := by
  rcases hb : alook s.buckets f with _ | l <;> simp [lfuUpdateFrequency, hb]

theorem lfuPut_evicts_min_tail {K V : Type} [DecidableEq K] {s : LfuSt K V}
    (h : LfuInv s) {k : K} (v : V) (hk : alook s.cache_ k = none)
    (hfull : s.capacity_ ≤ s.cache_.length) :
    ∃ j, (bGet s.buckets s.min_frequency_).getLast? = some j ∧
      lfuContains s j = true ∧
      lfuContains (lfuPut s k v) j = false := by
  obtain ⟨hcap, hnd, hlen, h4, h5, h6, h7, h8⟩ := h
  have hcap0 : ¬ s.capacity_ = 0 := by omega
  have hknotmem : k ∉ akeys s.cache_ := alook_eq_none_iff.mp hk
  have hcne : s.cache_ ≠ [] := by
    intro he
    rw [he] at hfull
    simp at hfull
    omega
  obtain ⟨hm1, hm2⟩ := h8 hcne
  rcases hbm : alook s.buckets s.min_frequency_ with _ | l
  · exact absurd (by simp [bGet, hbm]) hm1
  have hlval : bGet s.buckets s.min_frequency_ = l := bGet_eq_of_alook hbm
  have hlne : l ≠ [] := hlval ▸ hm1
  rcases hjl : l.getLast? with _ | j
  · exact absurd (List.getLast?_eq_none_iff.mp hjl) hlne
  have hjmem : j ∈ l := getLast?_mem_of_eq hjl
  obtain ⟨vj, hvj⟩ := h5 s.min_frequency_ j (by rw [hlval]; exact hjmem)
  have hjkeys : j ∈ akeys s.cache_ := alook_isSome_iff.mp (by simp [hvj])
  have hkj : k ≠ j := fun he => hknotmem (he ▸ hjkeys)
  have hevict : lfuEvictLFU s =
      (some j,
       { s with buckets := aset s.buckets s.min_frequency_ l.dropLast }) := by
    simp [lfuEvictLFU, hbm, hjl]
  have hstate : lfuPut s k v =
      { s with
        cache_ := aset (aerase s.cache_ j) k (v, 1),
        buckets := addToBucketHead
          (aset s.buckets s.min_frequency_ l.dropLast) 1 k,
        min_frequency_ := 1 } := by
    simp [lfuPut, hcap0, hk, hfull, hevict]
  refine ⟨j, by rw [hlval]; exact hjl, by simp [lfuContains, hvj], ?_⟩
  rw [hstate]
  show ((alook (aset (aerase s.cache_ j) k (v, 1)) j).isSome : Bool) = false
  rw [alook_aset_ne _ (fun he => hkj he.symm), alook_aerase_self hnd]
  rfl

/-- C5: on the LFU engine, every `get` and every `put` on an existing key
increments that key's frequency by exactly 1, and a capacity eviction
removes the tail node of the `min_frequency_` bucket.  Concretely, with
capacity 3: after put 1, put 2, put 3, two get 1 and one get 2, put 4 evicts
key 3; with no accesses at all, put 4 evicts key 1. -/
theorem spec_C5 {K V : Type} [DecidableEq K] (c : Nat) (hc : 0 < c)
    (ops : List (Op K V)) :
    (∀ (s : LfuSt K V) (k : K) (v : V) (f : Nat),
      alook s.cache_ k = some (v, f) →
      lfuGetFrequency s k = f ∧
      lfuGetFrequency (lfuGet s k).2 k = f + 1) ∧
    (∀ (s : LfuSt K V) (k : K) (v0 v : V) (f : Nat), 0 < s.capacity_ →
      alook s.cache_ k = some (v0, f) →
      lfuGetFrequency (lfuPut s k v) k = f + 1) ∧
    (∀ (k : K) (v : V),
      alook (lfuRun (lfuInit c) ops).cache_ k = none →
      (lfuRun (lfuInit c) ops).capacity_ ≤
        (lfuRun (lfuInit c) ops).cache_.length →
      ∃ j, (bGet (lfuRun (lfuInit c) ops).buckets
          (lfuRun (lfuInit c) ops).min_frequency_).getLast? = some j ∧
        lfuContains (lfuRun (lfuInit c) ops) j = true ∧
        lfuContains (lfuPut (lfuRun (lfuInit c) ops) k v) j = false) ∧
    (lfuContains (lfuRun (lfuInit 3 : LfuSt Nat Nat)
        [Op.put 1 1, Op.put 2 2, Op.put 3 3, Op.get 1, Op.get 1, Op.get 2,
          Op.put 4 4]) 3 = false ∧
      lfuContains (lfuRun (lfuInit 3 : LfuSt Nat Nat)
        [Op.put 1 1, Op.put 2 2, Op.put 3 3, Op.get 1, Op.get 1, Op.get 2,
          Op.put 4 4]) 1 = true ∧
      lfuContains (lfuRun (lfuInit 3 : LfuSt Nat Nat)
        [Op.put 1 1, Op.put 2 2, Op.put 3 3, Op.get 1, Op.get 1, Op.get 2,
          Op.put 4 4]) 2 = true ∧
      lfuContains (lfuRun (lfuInit 3 : LfuSt Nat Nat)
        [Op.put 1 1, Op.put 2 2, Op.put 3 3, Op.get 1, Op.get 1, Op.get 2,
          Op.put 4 4]) 4 = true) ∧
    (lfuContains (lfuRun (lfuInit 3 : LfuSt Nat Nat)
        [Op.put 1 1, Op.put 2 2, Op.put 3 3, Op.put 4 4]) 1 = false ∧
      lfuContains (lfuRun (lfuInit 3 : LfuSt Nat Nat)
        [Op.put 1 1, Op.put 2 2, Op.put 3 3, Op.put 4 4]) 4 = true) := by
  have hInv := lfuInv_run (lfuInv_init hc) ops
  refine ⟨?_, ?_, ?_, by decide, by decide⟩
  · intro s k v f hk
    constructor
    · simp [lfuGetFrequency, hk]
    · have hstate : (lfuGet s k).2 = lfuUpdateFrequency s k v f := by
        simp [lfuGet, hk]
      rw [hstate]
      simp [lfuGetFrequency, lfuUpdateFrequency_cache, alook_aset_self]
  · intro s k v0 v f hcap hk
    have hcap0 : ¬ s.capacity_ = 0 := by omega
    have hstate : lfuPut s k v =
        lfuUpdateFrequency { s with cache_ := aset s.cache_ k (v, f) } k v
          f := by
      simp [lfuPut, hcap0, hk]
    rw [hstate]
    simp [lfuGetFrequency, lfuUpdateFrequency_cache, alook_aset_self]
  · intro k v hk hfull
    exact lfuPut_evicts_min_tail hInv v hk hfull

/-- Witness for C5 at concrete inputs. -/
theorem spec_C5_witness :
    (∀ (s : LfuSt Nat Nat) (k : Nat) (v : Nat) (f : Nat),
      alook s.cache_ k = some (v, f) →
      lfuGetFrequency s k = f ∧
      lfuGetFrequency (lfuGet s k).2 k = f + 1) ∧
    (∀ (k : Nat) (v : Nat),
      alook (lfuRun (lfuInit 1 : LfuSt Nat Nat) [Op.put 9 9]).cache_ k
        = none →
      (lfuRun (lfuInit 1 : LfuSt Nat Nat) [Op.put 9 9]).capacity_ ≤
        (lfuRun (lfuInit 1 : LfuSt Nat Nat) [Op.put 9 9]).cache_.length →
      ∃ j, (bGet (lfuRun (lfuInit 1 : LfuSt Nat Nat) [Op.put 9 9]).buckets
          (lfuRun (lfuInit 1 : LfuSt Nat Nat)
            [Op.put 9 9]).min_frequency_).getLast? = some j ∧
        lfuContains (lfuRun (lfuInit 1 : LfuSt Nat Nat) [Op.put 9 9]) j
          = true ∧
        lfuContains
          (lfuPut (lfuRun (lfuInit 1 : LfuSt Nat Nat) [Op.put 9 9]) k v) j
          = false) :=
  ⟨(spec_C5 (K := Nat) (V := Nat) 1 (by decide) [Op.put 9 9]).1,
   (spec_C5 (K := Nat) (V := Nat) 1 (by decide) [Op.put 9 9]).2.2.1⟩

/-- C2 (amended): during a capacity-triggered eviction in the LRU-K engine,
when a history record with fewer than K accesses exists, the victim is the
history record with the earliest first access timestamp; otherwise the
victim is the promoted record whose NEWEST queue timestamp (its most recent
access, `access_times.back()`, which is what `getCacheKthAccessTime`
returns) is earliest among all promoted records — not, as the original
claim said, the record whose oldest queue timestamp is earliest. -/
theorem spec_C2_amended {K V : Type} [DecidableEq K] (s : LruKSt K V) :
    (s.history_.filter (fun q => q.2.length < s.k_) ≠ [] →
      ∃ p, p ∈ s.history_.filter (fun q => q.2.length < s.k_) ∧
        lrukFindVictim s = some p.1 ∧
        ∀ q ∈ s.history_.filter (fun q => q.2.length < s.k_),
          p.2.headD 0 ≤ q.2.headD 0) ∧
    (s.history_.filter (fun q => q.2.length < s.k_) = [] → s.cache_ ≠ [] →
      ∃ p, p ∈ s.cache_ ∧ lrukFindVictim s = some p.1 ∧
        ∀ q ∈ s.cache_,
          getCacheKthAccessTime p.2 ≤ getCacheKthAccessTime q.2) := by
  constructor
  · intro hne
    have hs := argminBy_isSome (fun q => q.2.headD 0) hne
    rcases hp : argminBy (fun q => q.2.headD 0)
        (s.history_.filter (fun q => q.2.length < s.k_)) with _ | p
    · rw [hp] at hs
      simp at hs
    · refine ⟨p, argminBy_mem hp, ?_, argminBy_le hp⟩
      simp only [lrukFindVictim]
      rw [hp]
  · intro hfil hcne
    have hs := argminBy_isSome (fun q => getCacheKthAccessTime q.2) hcne
    rcases hp : argminBy (fun q => getCacheKthAccessTime q.2) s.cache_
        with _ | p
    · rw [hp] at hs
      simp at hs
    · refine ⟨p, argminBy_mem hp, ?_, argminBy_le hp⟩
      simp only [lrukFindVictim, hfil]
      rw [show argminBy (fun q : K × List Nat => q.2.headD 0)
          ([] : List (K × List Nat)) = none from rfl]
      rw [hp]

/-- Witness for C2 at concrete inputs. -/
theorem spec_C2_witness :
    (∃ p, p ∈ (lrukRun (lrukInit 3 2 : LruKSt Nat Nat)
        [Op.put 1 0]).history_.filter
          (fun q => q.2.length <
            (lrukRun (lrukInit 3 2 : LruKSt Nat Nat) [Op.put 1 0]).k_) ∧
      lrukFindVictim (lrukRun (lrukInit 3 2 : LruKSt Nat Nat) [Op.put 1 0])
        = some p.1 ∧
      ∀ q ∈ (lrukRun (lrukInit 3 2 : LruKSt Nat Nat)
        [Op.put 1 0]).history_.filter
          (fun q => q.2.length <
            (lrukRun (lrukInit 3 2 : LruKSt Nat Nat) [Op.put 1 0]).k_),
        p.2.headD 0 ≤ q.2.headD 0) ∧
    (∃ p, p ∈ (lrukRun (lrukInit 3 2 : LruKSt Nat Nat)
        [Op.put 1 0, Op.put 1 1]).cache_ ∧
      lrukFindVictim (lrukRun (lrukInit 3 2 : LruKSt Nat Nat)
        [Op.put 1 0, Op.put 1 1]) = some p.1 ∧
      ∀ q ∈ (lrukRun (lrukInit 3 2 : LruKSt Nat Nat)
        [Op.put 1 0, Op.put 1 1]).cache_,
        getCacheKthAccessTime p.2 ≤ getCacheKthAccessTime q.2) :=
  ⟨(spec_C2_amended (lrukRun (lrukInit 3 2 : LruKSt Nat Nat)
      [Op.put 1 0])).1 (by decide),
   (spec_C2_amended (lrukRun (lrukInit 3 2 : LruKSt Nat Nat)
      [Op.put 1 0, Op.put 1 1])).2 (by decide) (by decide)⟩

/-- C2 counterexample: in the state reached inside the final
`put 3 _` (capacity 2, K = 2, after promoting keys 2 then 1), no history
record is below K, promoted record 2 has queue [1, 2] and record 1 has
queue [0, 3].  The rule of the claim (earliest OLDEST timestamp) names
key 1 as victim, but `findVictimKey` — comparing `access_times.back()` —
returns key 2, and the engine indeed evicts key 2 and keeps key 1. -/
theorem spec_C2_counterexample :
    (lrukRecordHistory (lrukRun (lrukInit 2 2 : LruKSt Nat Nat)
        [Op.put 1 0, Op.put 2 0, Op.put 2 1, Op.put 1 1, Op.put 3 0])
        3).history_.filter
      (fun q => q.2.length <
        (lrukRecordHistory (lrukRun (lrukInit 2 2 : LruKSt Nat Nat)
          [Op.put 1 0, Op.put 2 0, Op.put 2 1, Op.put 1 1, Op.put 3 0])
          3).k_) = [] ∧
    lrukFindVictim (lrukRecordHistory (lrukRun (lrukInit 2 2 : LruKSt Nat Nat)
        [Op.put 1 0, Op.put 2 0, Op.put 2 1, Op.put 1 1, Op.put 3 0]) 3)
      = some 2 ∧
    specFrontVictim (lrukRecordHistory (lrukRun (lrukInit 2 2 : LruKSt Nat Nat)
        [Op.put 1 0, Op.put 2 0, Op.put 2 1, Op.put 1 1, Op.put 3 0]) 3)
      = some 1 ∧
    lrukContains (lrukRun (lrukInit 2 2 : LruKSt Nat Nat)
        [Op.put 1 0, Op.put 2 0, Op.put 2 1, Op.put 1 1, Op.put 3 0,
          Op.put 3 1]) 2 = false ∧
    lrukContains (lrukRun (lrukInit 2 2 : LruKSt Nat Nat)
        [Op.put 1 0, Op.put 2 0, Op.put 2 1, Op.put 1 1, Op.put 3 0,
          Op.put 3 1]) 1 = true := by
  decide

theorem lrukFindVictim_isSome {K V : Type} [DecidableEq K] {s1 : LruKSt K V}
    (hcne : s1.cache_ ≠ []) : (lrukFindVictim s1).isSome := by
  simp only [lrukFindVictim]
  rcases hp : argminBy (fun q => q.2.headD 0)
      (s1.history_.filter (fun q => q.2.length < s1.k_)) with _ | p
  · rcases hq : argminBy (fun q => getCacheKthAccessTime q.2) s1.cache_
        with _ | q
    · have hs := argminBy_isSome (fun q => getCacheKthAccessTime q.2) hcne
      rw [hq] at hs
      simp at hs
    · rw [hp, hq]
      rfl
  · rw [hp]
    rfl

theorem lruk_hist_victim_ne {K V : Type} [DecidableEq K] {s1 : LruKSt K V}
    (hhnd : (akeys s1.history_).Nodup) {k : K} {ts : List Nat}
    (hts : alook s1.history_ k = some ts) (hlen : s1.k_ ≤ ts.length)
    {j : K} (hv : lrukFindVictim s1 = some j)
    (hjc : ¬ (alook s1.cache_ j).isSome = true) : j ≠ k := by
  simp only [lrukFindVictim] at hv
  rcases hp : argminBy (fun q => q.2.headD 0)
      (s1.history_.filter (fun q => q.2.length < s1.k_)) with _ | p
  · rw [hp] at hv
    rcases hq : argminBy (fun q => getCacheKthAccessTime q.2) s1.cache_
        with _ | q
    · rw [hq] at hv
      simp at hv
    · rw [hq] at hv
      simp at hv
      have hqm := argminBy_mem hq
      have : j ∈ akeys s1.cache_ := by
        rw [← hv]
        exact List.mem_map_of_mem Prod.fst hqm
      exact absurd (alook_isSome_iff.mpr this) hjc
  · rw [hp] at hv
    simp at hv
    have hpm := argminBy_mem hp
    rw [List.mem_filter] at hpm
    obtain ⟨hpmem, hplen⟩ := hpm
    intro he
    have hpk : p.1 = k := hv.trans he
    have hlook : alook s1.history_ p.1 = some p.2 :=
      alook_of_mem_nodup hhnd hpmem
    rw [hpk, hts] at hlook
    injection hlook with he2
    rw [he2] at hlen
    simp at hplen
    omega

theorem lrukRecordHistory_self {K V : Type} [DecidableEq K] {s : LruKSt K V}
    {k : K} (hkpos : 0 < s.k_)
    (hcount : lrukHistoryCount s k = s.k_ - 1) :
    ∃ ts, alook (lrukRecordHistory s k).history_ k = some ts ∧
      ts.length = s.k_ := by
  unfold lrukHistoryCount at hcount
  rcases hh : alook s.history_ k with _ | ts0
  · rw [hh] at hcount
    simp at hcount
    have hk1 : s.k_ = 1 := by omega
    refine ⟨[s.clock], ?_, by simp [hk1]⟩
    simp only [lrukRecordHistory, hh]
    rw [alook_append, hh]
    simp [alook]
  · rw [hh] at hcount
    simp at hcount
    have hnopop : ¬ s.k_ < (ts0 ++ [s.clock]).length := by
      simp
      omega
    refine ⟨ts0 ++ [s.clock], ?_, by simp; omega⟩
    simp only [lrukRecordHistory, hh]
    rw [if_neg hnopop]
    exact alook_aset_self _ _ _

theorem lrukPut_promotes {K V : Type} [DecidableEq K] {s : LruKSt K V}
    (hInv : LruKInv s) {k : K} (v : V)
    (hk : alook s.cache_ k = none)
    (hcount : lrukHistoryCount s k = s.k_ - 1) :
    ∃ ts, alook (lrukPut s k v).cache_ k = some ⟨v, ts⟩ ∧
      alook (lrukRecordHistory s k).history_ k = some ts ∧
      ts.length = s.k_ ∧
      alook (lrukPut s k v).history_ k = none ∧
      lrukContains (lrukPut s k v) k = true ∧
      (lrukGet (lrukPut s k v) k).1 = some v := by
  obtain ⟨hcap, hkpos, hhnd, hcnd⟩ := hInv
  obtain ⟨ts, hts, htslen⟩ := lrukRecordHistory_self hkpos hcount
  have hhnd1 : (akeys (lrukRecordHistory s k).history_).Nodup :=
    akeys_lrukRecordHistory s k hhnd
  have hlen : (lrukRecordHistory s k).k_ ≤ ts.length := by
    rw [lrukRecordHistory_k]
    omega
  have hfin : ∀ s2 : LruKSt K V, (akeys s2.history_).Nodup →
      alook s2.history_ k = some ts →
      alook (lrukPromote s2 k v).cache_ k = some ⟨v, ts⟩ ∧
      alook (lrukPromote s2 k v).history_ k = none ∧
      lrukContains (lrukPromote s2 k v) k = true ∧
      (lrukGet (lrukPromote s2 k v) k).1 = some v := by
    intro s2 hh2 hts2
    have hstate2 : lrukPromote s2 k v =
        { s2 with cache_ := aset s2.cache_ k ⟨v, ts⟩,
                  history_ := aerase s2.history_ k } := by
      simp [lrukPromote, hts2]
    rw [hstate2]
    have hcl : alook (aset s2.cache_ k ⟨v, ts⟩) k = some ⟨v, ts⟩ :=
      alook_aset_self _ _ _
    exact ⟨hcl, alook_aerase_self hh2 k, by simp [lrukContains, hcl],
      by simp [lrukGet, hcl]⟩
  by_cases hfull : (lrukRecordHistory s k).capacity_ ≤
      (lrukRecordHistory s k).cache_.length
  · have hcne : (lrukRecordHistory s k).cache_ ≠ [] := by
      intro he
      rw [lrukRecordHistory_capacity, lrukRecordHistory_cache] at hfull
      rw [lrukRecordHistory_cache] at he
      rw [he] at hfull
      simp at hfull
      omega
    rcases hv : lrukFindVictim (lrukRecordHistory s k) with _ | j
    · have hs := lrukFindVictim_isSome hcne
      rw [hv] at hs
      simp at hs
    · by_cases hjc : (alook (lrukRecordHistory s k).cache_ j).isSome = true
      · have hstate : lrukPut s k v =
            lrukPromote
              { lrukRecordHistory s k with
                cache_ := aerase (lrukRecordHistory s k).cache_ j } k v := by
          simp [lrukPut, hk, hts, hlen, hfull, hv, hjc]
        rw [hstate]
        obtain ⟨h1, h2, h3, h4⟩ := hfin
          { lrukRecordHistory s k with
            cache_ := aerase (lrukRecordHistory s k).cache_ j } hhnd1 hts
        exact ⟨ts, h1, hts, htslen, h2, h3, h4⟩
      · have hjk : j ≠ k := lruk_hist_victim_ne hhnd1 hts hlen hv hjc
        have hstate : lrukPut s k v =
            lrukPromote
              { lrukRecordHistory s k with
                history_ :=
                  aerase (lrukRecordHistory s k).history_ j } k v := by
          simp [lrukPut, hk, hts, hlen, hfull, hv, hjc]
        rw [hstate]
        have hts3 : alook (aerase (lrukRecordHistory s k).history_ j) k
            = some ts := by
          rw [alook_aerase_ne (fun he => hjk he.symm)]
          exact hts
        obtain ⟨h1, h2, h3, h4⟩ := hfin
          { lrukRecordHistory s k with
            history_ := aerase (lrukRecordHistory s k).history_ j }
          (nodup_akeys_aerase hhnd1 j) hts3
        exact ⟨ts, h1, hts, htslen, h2, h3, h4⟩
  · have hstate : lrukPut s k v =
        lrukPromote (lrukRecordHistory s k) k v := by
      simp [lrukPut, hk, hts, hlen, hfull]
    rw [hstate]
    obtain ⟨h1, h2, h3, h4⟩ := hfin (lrukRecordHistory s k) hhnd1 hts
    exact ⟨ts, h1, hts, htslen, h2, h3, h4⟩

/-- C3: on the LRU-K engine, a key whose access count is below K is
invisible (`contains` is false and `get` fails with NotFound even after a
`put`); the `put` that brings the key's history queue to exactly K entries
promotes it — a promoted record is created carrying the value of that put
and the recorded timestamp queue, the history record is deleted, and
afterwards `contains` is true and `get` returns that value.  For K = 2:
one put of (1, "a") leaves key 1 invisible; a second put (1, "b") makes
`contains 1` true and `get 1` return "b". -/
theorem spec_C3 {K V : Type} [DecidableEq K] (c kk : Nat) (hc : 0 < c)
    (hkk : 0 < kk) (ops : List (Op K V)) :
    (∀ (s : LruKSt K V) (k : K), alook s.cache_ k = none →
      lrukContains s k = false ∧ (lrukGet s k).1 = none) ∧
    (∀ (k : K) (v : V),
      alook (lrukRun (lrukInit c kk) ops).cache_ k = none →
      lrukHistoryCount (lrukRun (lrukInit c kk) ops) k =
        (lrukRun (lrukInit c kk) ops).k_ - 1 →
      ∃ ts, alook (lrukPut (lrukRun (lrukInit c kk) ops) k v).cache_ k
          = some ⟨v, ts⟩ ∧
        alook (lrukRecordHistory (lrukRun (lrukInit c kk) ops) k).history_ k
          = some ts ∧
        ts.length = (lrukRun (lrukInit c kk) ops).k_ ∧
        alook (lrukPut (lrukRun (lrukInit c kk) ops) k v).history_ k
          = none ∧
        lrukContains (lrukPut (lrukRun (lrukInit c kk) ops) k v) k = true ∧
        (lrukGet (lrukPut (lrukRun (lrukInit c kk) ops) k v) k).1
          = some v) ∧
    (lrukContains (lrukRun (lrukInit 3 2 : LruKSt Nat String)
        [Op.put 1 "a"]) 1 = false ∧
      (lrukGet (lrukRun (lrukInit 3 2 : LruKSt Nat String)
        [Op.put 1 "a"]) 1).1 = none ∧
      lrukContains (lrukRun (lrukInit 3 2 : LruKSt Nat String)
        [Op.put 1 "a", Op.put 1 "b"]) 1 = true ∧
      (lrukGet (lrukRun (lrukInit 3 2 : LruKSt Nat String)
        [Op.put 1 "a", Op.put 1 "b"]) 1).1 = some "b") := by
  refine ⟨?_, ?_, by decide⟩
  · intro s k hk
    exact ⟨by simp [lrukContains, hk], by simp [lrukGet, hk]⟩
  · intro k v hk hcount
    exact lrukPut_promotes (lruKInv_run (lruKInv_init hc hkk) ops) v hk hcount

/-- Witness for C3 at concrete inputs. -/
theorem spec_C3_witness :
    (lrukContains (lrukRun (lrukInit 1 2 : LruKSt Nat Nat) []) 4 = false ∧
      (lrukGet (lrukRun (lrukInit 1 2 : LruKSt Nat Nat) []) 4).1 = none) ∧
    (∃ ts, alook (lrukPut (lrukRun (lrukInit 1 2 : LruKSt Nat Nat)
        [Op.put 1 0]) 1 5).cache_ 1 = some ⟨5, ts⟩ ∧
      alook (lrukRecordHistory (lrukRun (lrukInit 1 2 : LruKSt Nat Nat)
        [Op.put 1 0]) 1).history_ 1 = some ts ∧
      ts.length = (lrukRun (lrukInit 1 2 : LruKSt Nat Nat) [Op.put 1 0]).k_ ∧
      alook (lrukPut (lrukRun (lrukInit 1 2 : LruKSt Nat Nat)
        [Op.put 1 0]) 1 5).history_ 1 = none ∧
      lrukContains (lrukPut (lrukRun (lrukInit 1 2 : LruKSt Nat Nat)
        [Op.put 1 0]) 1 5) 1 = true ∧
      (lrukGet (lrukPut (lrukRun (lrukInit 1 2 : LruKSt Nat Nat)
        [Op.put 1 0]) 1 5) 1).1 = some 5) :=
  ⟨(spec_C3 (K := Nat) (V := Nat) 1 2 (by decide) (by decide) []).1
      (lrukRun (lrukInit 1 2) []) 4 (by decide),
   (spec_C3 (K := Nat) (V := Nat) 1 2 (by decide) (by decide) [Op.put 1 0]).2.1
      1 5 (by decide) (by decide)⟩

theorem lrukRun_append {K V : Type} [DecidableEq K] (s : LruKSt K V)
    (a b : List (Op K V)) : lrukRun s (a ++ b) = lrukRun (lrukRun s a) b := by
  show List.foldl _ _ _ = _
  rw [List.foldl_append]
  rfl

theorem akeys_range_map (n : Nat) :
    akeys ((List.range n).map (fun i => (i, ([i] : List Nat)))) =
      List.range n := by
  simp [akeys, List.map_map]
  exact List.map_id _

theorem lrukPuts_state (c kk : Nat) (hkk : 2 ≤ kk) (n : Nat) :
    lrukRun (lrukInit c kk : LruKSt Nat Nat) (lrukPuts n) =
      ⟨c, kk, n, (List.range n).map (fun i => (i, [i])), []⟩ := by
  induction n with
  | zero => rfl
  | succ m ih =>
    have hsplit : lrukPuts (m + 1) = lrukPuts m ++ [Op.put m 0] := by
      simp [lrukPuts, List.range_succ]
    rw [hsplit, lrukRun_append, ih]
    have hilook : alook ((List.range m).map (fun i => (i, ([i] : List Nat)))) m
        = none := by
      rw [alook_eq_none_iff, akeys_range_map]
      intro hm
      exact absurd (List.mem_range.mp hm) (by omega)
    show lrukPut (⟨c, kk, m, (List.range m).map (fun i => (i, [i])), []⟩ :
        LruKSt Nat Nat) m 0 = _
    have hrec : lrukRecordHistory
        (⟨c, kk, m, (List.range m).map (fun i => (i, [i])), []⟩ :
          LruKSt Nat Nat) m =
        ⟨c, kk, m + 1,
          (List.range m).map (fun i => (i, [i])) ++ [(m, [m])], []⟩ := by
      simp [lrukRecordHistory, hilook]
    have hlook1 : alook
        ((List.range m).map (fun i => (i, ([i] : List Nat))) ++ [(m, [m])]) m
        = some [m] := by
      rw [alook_append, hilook]
      simp [alook]
    have hnoprom : ¬ (kk ≤ ([m] : List Nat).length) := by
      simp
      omega
    have hc0 : alook ([] : List (Nat × CacheRec Nat)) m = none := rfl
    simp only [lrukPut, hc0, hrec, hlook1, hnoprom, if_false]
    rw [List.range_succ]
    simp

theorem lrukGet_history {K V : Type} [DecidableEq K] (s : LruKSt K V)
    (j : K) : (lrukGet s j).2.history_ = s.history_ := by
  rcases hj : alook s.cache_ j with _ | r <;> simp [lrukGet, hj]

theorem lrukPut_history_removal {K V : Type} [DecidableEq K]
    {s : LruKSt K V} {j k : K} {v : V}
    (hbefore : alook s.history_ k ≠ none)
    (hafter : alook (lrukPut s j v).history_ k = none) :
    k = j ∨ lrukFindVictim (lrukRecordHistory s j) = some k := by
  by_cases hkj : k = j
  · exact Or.inl hkj
  · right
    have hpre : alook (lrukRecordHistory s j).history_ k =
        alook s.history_ k := alook_lrukRecordHistory_ne s hkj
    rcases hc : alook s.cache_ j with _ | r
    · rcases hh1 : alook (lrukRecordHistory s j).history_ j with _ | ts1
      · have hstate : lrukPut s j v = lrukRecordHistory s j := by
          simp [lrukPut, hc, hh1]
        rw [hstate, hpre] at hafter
        exact absurd hafter hbefore
      · by_cases hlen : (lrukRecordHistory s j).k_ ≤ ts1.length
        · by_cases hfull : (lrukRecordHistory s j).capacity_ ≤
              (lrukRecordHistory s j).cache_.length
          · rcases hv : lrukFindVictim (lrukRecordHistory s j) with _ | jv
            · have hstate : lrukPut s j v = lrukRecordHistory s j := by
                simp [lrukPut, hc, hh1, hlen, hfull, hv]
              rw [hstate, hpre] at hafter
              exact absurd hafter hbefore
            · by_cases hkjv : k = jv
              · rw [hkjv]
              · exfalso
                by_cases hjc :
                    (alook (lrukRecordHistory s j).cache_ jv).isSome = true
                · have hstate : lrukPut s j v =
                      lrukPromote
                        { lrukRecordHistory s j with
                          cache_ :=
                            aerase (lrukRecordHistory s j).cache_ jv } j
                        v := by
                    simp [lrukPut, hc, hh1, hlen, hfull, hv, hjc]
                  rw [hstate] at hafter
                  have hstate2 : lrukPromote
                      { lrukRecordHistory s j with
                        cache_ := aerase (lrukRecordHistory s j).cache_ jv }
                      j v =
                      { lrukRecordHistory s j with
                        cache_ :=
                          aset (aerase (lrukRecordHistory s j).cache_ jv) j
                            ⟨v, ts1⟩,
                        history_ :=
                          aerase (lrukRecordHistory s j).history_ j } := by
                    simp [lrukPromote, hh1]
                  rw [hstate2] at hafter
                  have hafter2 :
                      alook (aerase (lrukRecordHistory s j).history_ j) k
                        = none := hafter
                  rw [alook_aerase_ne hkj, hpre] at hafter2
                  exact hbefore hafter2
                · have hstate : lrukPut s j v =
                      lrukPromote
                        { lrukRecordHistory s j with
                          history_ :=
                            aerase (lrukRecordHistory s j).history_ jv } j
                        v := by
                    simp [lrukPut, hc, hh1, hlen, hfull, hv, hjc]
                  rw [hstate] at hafter
                  rcases hh2 : alook
                      (aerase (lrukRecordHistory s j).history_ jv) j
                      with _ | ts2
                  · have hstate2 : lrukPromote
                        { lrukRecordHistory s j with
                          history_ :=
                            aerase (lrukRecordHistory s j).history_ jv } j
                        v =
                        { lrukRecordHistory s j with
                          history_ :=
                            aerase (lrukRecordHistory s j).history_ jv } := by
                      simp [lrukPromote, hh2]
                    rw [hstate2] at hafter
                    have hafter2 :
                        alook (aerase (lrukRecordHistory s j).history_ jv) k
                          = none := hafter
                    rw [alook_aerase_ne hkjv, hpre] at hafter2
                    exact hbefore hafter2
                  · have hstate2 : lrukPromote
                        { lrukRecordHistory s j with
                          history_ :=
                            aerase (lrukRecordHistory s j).history_ jv } j
                        v =
                        { lrukRecordHistory s j with
                          cache_ :=
                            aset (lrukRecordHistory s j).cache_ j ⟨v, ts2⟩,
                          history_ :=
                            aerase
                              (aerase (lrukRecordHistory s j).history_ jv)
                              j } := by
                      simp [lrukPromote, hh2]
                    rw [hstate2] at hafter
                    have hafter2 :
                        alook
                          (aerase
                            (aerase (lrukRecordHistory s j).history_ jv) j)
                          k = none := hafter
                    rw [alook_aerase_ne hkj, alook_aerase_ne hkjv, hpre]
                      at hafter2
                    exact hbefore hafter2
          · have hstate : lrukPut s j v =
                lrukPromote (lrukRecordHistory s j) j v := by
              simp [lrukPut, hc, hh1, hlen, hfull]
            rw [hstate] at hafter
            have hstate2 : lrukPromote (lrukRecordHistory s j) j v =
                { lrukRecordHistory s j with
                  cache_ := aset (lrukRecordHistory s j).cache_ j ⟨v, ts1⟩,
                  history_ :=
                    aerase (lrukRecordHistory s j).history_ j } := by
              simp [lrukPromote, hh1]
            rw [hstate2] at hafter
            have hafter2 :
                alook (aerase (lrukRecordHistory s j).history_ j) k
                  = none := hafter
            rw [alook_aerase_ne hkj, hpre] at hafter2
            exact absurd hafter2 hbefore
        · have hstate : lrukPut s j v = lrukRecordHistory s j := by
            simp [lrukPut, hc, hh1, hlen]
          rw [hstate, hpre] at hafter
          exact absurd hafter hbefore
    · have hstate : lrukPut s j v =
          { s with
            cache_ :=
              aset s.cache_ j (recTouch s.k_ s.clock { r with value := v }),
            clock := s.clock + 1 } := by
        simp [lrukPut, hc]
      rw [hstate] at hafter
      exact absurd hafter hbefore

/-- C10: with K ≥ 2, the LRU-K history table is not bounded by the capacity:
n first-time puts on n distinct keys leave `size() = 0`, every key invisible
and n history records; and a history record disappears only when its key is
promoted (the put's own key), when it is chosen as the eviction victim of a
promotion, or on `clear()` — `get` and `contains` never remove one. -/
theorem spec_C10 {K V : Type} [DecidableEq K] :
    (∀ c kk : Nat, 2 ≤ kk → ∀ n : Nat,
      lrukSize (lrukRun (lrukInit c kk : LruKSt Nat Nat) (lrukPuts n)) = 0 ∧
      (lrukRun (lrukInit c kk : LruKSt Nat Nat)
        (lrukPuts n)).history_.length = n ∧
      ∀ i : Nat,
        lrukContains (lrukRun (lrukInit c kk : LruKSt Nat Nat) (lrukPuts n))
          i = false) ∧
    (∀ (s : LruKSt K V) (j : K),
      (lrukStep s (Op.get j)).history_ = s.history_ ∧
      (lrukStep s (Op.contains j)).history_ = s.history_) ∧
    (∀ (s : LruKSt K V) (j k : K) (v : V),
      alook s.history_ k ≠ none →
      alook (lrukPut s j v).history_ k = none →
      k = j ∨ lrukFindVictim (lrukRecordHistory s j) = some k) := by
  refine ⟨?_, ?_, ?_⟩
  · intro c kk hkk n
    rw [lrukPuts_state c kk hkk n]
    refine ⟨rfl, by simp, ?_⟩
    intro i
    rfl
  · intro s j
    exact ⟨lrukGet_history s j, rfl⟩
  · intro s j k v hbefore hafter
    exact lrukPut_history_removal hbefore hafter

/-- Witness for C10 at concrete inputs. -/
theorem spec_C10_witness :
    (lrukSize (lrukRun (lrukInit 1 2 : LruKSt Nat Nat) (lrukPuts 3)) = 0 ∧
      (lrukRun (lrukInit 1 2 : LruKSt Nat Nat)
        (lrukPuts 3)).history_.length = 3 ∧
      ∀ i : Nat,
        lrukContains (lrukRun (lrukInit 1 2 : LruKSt Nat Nat) (lrukPuts 3)) i
          = false) ∧
    (1 = 1 ∨ lrukFindVictim (lrukRecordHistory
        (lrukRun (lrukInit 1 2 : LruKSt Nat Nat) [Op.put 1 0]) 1)
      = some 1) :=
  ⟨(spec_C10 (K := Nat) (V := Nat)).1 1 2 (by decide) 3,
   (spec_C10 (K := Nat) (V := Nat)).2.2
      (lrukRun (lrukInit 1 2 : LruKSt Nat Nat) [Op.put 1 0]) 1 1 5
      (by decide) (by decide)⟩

theorem alook_cons_self {K V : Type} [DecidableEq K] (k : K) (v : V)
    (t : List (K × V)) : alook ((k, v) :: t) k = some v := by
  simp [alook]

theorem alook_cons_ne {K V : Type} [DecidableEq K] {k j : K} (h : k ≠ j)
    (w : V) (t : List (K × V)) : alook ((j, w) :: t) k = alook t k := by
  simp [alook, h]

theorem lruVal_preserve {K V : Type} [DecidableEq K] {s : LruSt K V}
    (hInv : LruInv s) {k : K} {v : V} (hv : lruVal s k = some v)
    {op : Op K V}
    (hpres : (lruVal s k).isSome → (lruVal (lruStep s op) k).isSome)
    (hnp : isPutOn k op = false) :
    lruVal (lruStep s op) k = some v := by
  obtain ⟨hcap, hsz, hle, hnd⟩ := hInv
  have hva : alook s.order k = some v := hv
  have hps : (lruVal (lruStep s op) k).isSome := hpres (by rw [hv]; rfl)
  cases op with
  | get j =>
    rcases hj : alook s.order j with _ | w
    · show lruVal (lruGet s j).2 k = some v
      simp only [lruGet, hj]
      exact hv
    · have hstate : (lruGet s j).2 =
          { s with order := (j, w) :: aerase s.order j } := by
        simp [lruGet, hj]
      show lruVal (lruGet s j).2 k = some v
      rw [hstate]
      show alook ((j, w) :: aerase s.order j) k = some v
      by_cases hkj : k = j
      · subst hkj
        rw [hva] at hj
        injection hj with he
        rw [← he, alook_cons_self]
      · rw [alook_cons_ne hkj, alook_aerase_ne hkj]
        exact hva
  | put j w =>
    have hkj : k ≠ j := by
      simp [isPutOn] at hnp
      exact fun he => hnp he.symm
    show lruVal (lruPut s j w) k = some v
    rcases hj : alook s.order j with _ | w0
    · by_cases hfull : s.capacity_ ≤ s.size_
      · have hstate : lruPut s j w =
            { s with order := (j, w) :: s.order.dropLast,
                     size_ := s.size_ - 1 + 1 } := by
          simp [lruPut, hj, hfull]
        have hps2 : (alook s.order.dropLast k).isSome := by
          have h2 : (lruVal (lruPut s j w) k).isSome := hps
          rw [hstate] at h2
          have h3 : (alook ((j, w) :: s.order.dropLast) k).isSome := h2
          rwa [alook_cons_ne hkj] at h3
        rcases h3 : alook s.order.dropLast k with _ | v2
        · rw [h3] at hps2
          simp at hps2
        · have hmem : (k, v2) ∈ s.order.dropLast := alook_mem h3
          have hmem2 : (k, v2) ∈ s.order :=
            (List.dropLast_sublist _).subset hmem
          have h4 := alook_of_mem_nodup hnd hmem2
          rw [hva] at h4
          injection h4 with h5
          rw [hstate]
          show alook ((j, w) :: s.order.dropLast) k = some v
          rw [alook_cons_ne hkj, h3, h5]
      · have hstate : lruPut s j w =
            { s with order := (j, w) :: s.order, size_ := s.size_ + 1 } := by
          simp [lruPut, hj, hfull]
        rw [hstate]
        show alook ((j, w) :: s.order) k = some v
        rw [alook_cons_ne hkj]
        exact hva
    · have hstate : lruPut s j w =
          { s with order := (j, w) :: aerase s.order j } := by
        simp [lruPut, hj]
      rw [hstate]
      show alook ((j, w) :: aerase s.order j) k = some v
      rw [alook_cons_ne hkj, alook_aerase_ne hkj]
      exact hva
  | contains j => exact hv
  | clear =>
    exfalso
    have h2 : (alook ([] : List (K × V)) k).isSome := hps
    simp [alook] at h2

theorem lruVal_run {K V : Type} [DecidableEq K] {s : LruSt K V}
    (hInv : LruInv s) {k : K} {v : V} (hv : lruVal s k = some v)
    {ops : List (Op K V)} (hsafe : LruSafe k s ops) :
    lruVal (lruRun s ops) k = some v := by
  induction ops generalizing s with
  | nil => exact hv
  | cons op t ih =>
    obtain ⟨hpres, hnp, hrest⟩ := hsafe
    exact ih (lruInv_step hInv op) (lruVal_preserve hInv hv hpres hnp) hrest

theorem fifoVal_preserve {K V : Type} [DecidableEq K] {s : FifoSt K V}
    (hInv : FifoInv s) {k : K} {v : V} (hv : fifoVal s k = some v)
    {op : Op K V}
    (hpres : (fifoVal s k).isSome → (fifoVal (fifoStep s op) k).isSome)
    (hnp : isPutOn k op = false) :
    fifoVal (fifoStep s op) k = some v := by
  obtain ⟨hcap, hsz, hle, hnd⟩ := hInv
  have hva : alook s.order k = some v := hv
  have hps : (fifoVal (fifoStep s op) k).isSome := hpres (by rw [hv]; rfl)
  cases op with
  | get j => exact hv
  | put j w =>
    have hkj : k ≠ j := by
      simp [isPutOn] at hnp
      exact fun he => hnp he.symm
    show fifoVal (fifoPut s j w) k = some v
    rcases hj : alook s.order j with _ | w0
    · by_cases hfull : s.capacity_ ≤ s.size_
      · rcases horder : s.order with _ | ⟨p, t2⟩
        · rw [horder] at hva
          simp [alook] at hva
        · obtain ⟨k0, w0'⟩ := p
          have hj2 : alook ((k0, w0') :: t2) j = none := by
            rw [← horder]
            exact hj
          have hstate : fifoPut s j w =
              { s with order := t2 ++ [(j, w)],
                       size_ := s.size_ - 1 + 1 } := by
            simp [fifoPut, horder, hj2, hfull]
          rw [hstate]
          show alook (t2 ++ [(j, w)]) k = some v
          rw [alook_append]
          have hps2 : (alook (t2 ++ [(j, w)]) k).isSome := by
            have h2 : (fifoVal (fifoPut s j w) k).isSome := hps
            rw [hstate] at h2
            exact h2
          rw [alook_append] at hps2
          rcases h3 : alook t2 k with _ | v2
          · rw [h3] at hps2
            simp [alook, hkj] at hps2
          · have hmem : (k, v2) ∈ t2 := alook_mem h3
            have hmem2 : (k, v2) ∈ s.order := by
              rw [horder]
              exact List.mem_cons_of_mem _ hmem
            have h4 := alook_of_mem_nodup hnd hmem2
            rw [hva] at h4
            injection h4 with h5
            rw [h5]
      · have hstate : fifoPut s j w =
            { s with order := s.order ++ [(j, w)],
                     size_ := s.size_ + 1 } := by
          simp [fifoPut, hj, hfull]
        rw [hstate]
        show alook (s.order ++ [(j, w)]) k = some v
        rw [alook_append, hva]
    · have hstate : fifoPut s j w =
          { s with order := aset s.order j w } := by
        simp [fifoPut, hj]
      rw [hstate]
      show alook (aset s.order j w) k = some v
      rw [alook_aset_ne _ hkj]
      exact hva
  | contains j => exact hv
  | clear =>
    exfalso
    have h2 : (alook ([] : List (K × V)) k).isSome := hps
    simp [alook] at h2

theorem fifoVal_run {K V : Type} [DecidableEq K] {s : FifoSt K V}
    (hInv : FifoInv s) {k : K} {v : V} (hv : fifoVal s k = some v)
    {ops : List (Op K V)} (hsafe : FifoSafe k s ops) :
    fifoVal (fifoRun s ops) k = some v := by
  induction ops generalizing s with
  | nil => exact hv
  | cons op t ih =>
    obtain ⟨hpres, hnp, hrest⟩ := hsafe
    exact ih (fifoInv_step hInv op) (fifoVal_preserve hInv hv hpres hnp) hrest

theorem lfuEvictLFU_cache {K V : Type} [DecidableEq K] (s : LfuSt K V) :
    (lfuEvictLFU s).2.cache_ = s.cache_ := by
  rcases hbm : alook s.buckets s.min_frequency_ with _ | l
  · simp [lfuEvictLFU, hbm]
  · rcases hjl : l.getLast? with _ | j <;> simp [lfuEvictLFU, hbm, hjl]

theorem lfuVal_preserve {K V : Type} [DecidableEq K] {s : LfuSt K V}
    (hInv : LfuInv s) {k : K} {v : V} (hv : lfuVal s k = some v)
    {op : Op K V}
    (hpres : (lfuVal s k).isSome → (lfuVal (lfuStep s op) k).isSome)
    (hnp : isPutOn k op = false) :
    lfuVal (lfuStep s op) k = some v := by
  obtain ⟨hcap, hnd, hlen, _⟩ := hInv
  have hps : (lfuVal (lfuStep s op) k).isSome := hpres (by rw [hv]; rfl)
  rcases hk0 : alook s.cache_ k with _ | vf0
  · rw [show lfuVal s k = (alook s.cache_ k).map Prod.fst from rfl, hk0]
      at hv
    simp at hv
  obtain ⟨v0, f0⟩ := vf0
  have hv0 : v0 = v := by
    rw [show lfuVal s k = (alook s.cache_ k).map Prod.fst from rfl, hk0]
      at hv
    simpa using hv
  rw [hv0] at hk0
  have hcap0 : ¬ s.capacity_ = 0 := by omega
  cases op with
  | get j =>
    show lfuVal (lfuGet s j).2 k = some v
    rcases hj : alook s.cache_ j with _ | wf
    · simp only [lfuGet, hj]
      exact hv
    · obtain ⟨w, f⟩ := wf
      have hstate : (lfuGet s j).2 = lfuUpdateFrequency s j w f := by
        simp [lfuGet, hj]
      rw [hstate]
      show (alook (lfuUpdateFrequency s j w f).cache_ k).map Prod.fst
        = some v
      rw [lfuUpdateFrequency_cache]
      by_cases hkj : k = j
      · subst hkj
        rw [hk0] at hj
        injection hj with he
        injection he with he1 he2
        rw [alook_aset_self]
        simp [he1]
      · rw [alook_aset_ne _ hkj, hk0]
        rfl
  | put j w =>
    have hkj : k ≠ j := by
      simp [isPutOn] at hnp
      exact fun he => hnp he.symm
    show lfuVal (lfuPut s j w) k = some v
    rcases hj : alook s.cache_ j with _ | wf
    · by_cases hfull : s.capacity_ ≤ s.cache_.length
      · rcases hev : lfuEvictLFU s with ⟨jopt, s'⟩
        have hsc : s'.cache_ = s.cache_ := by
          have h2 := lfuEvictLFU_cache s
          rw [hev] at h2
          exact h2
        rcases jopt with _ | jv
        · have hstate : lfuPut s j w =
              { s' with cache_ := aset s'.cache_ j (w, 1),
                        buckets := addToBucketHead s'.buckets 1 j,
                        min_frequency_ := 1 } := by
            simp [lfuPut, hcap0, hj, hfull, hev]
          rw [hstate]
          show (alook (aset s'.cache_ j (w, 1)) k).map Prod.fst = some v
          rw [alook_aset_ne _ hkj, hsc, hk0]
          rfl
        · have hstate : lfuPut s j w =
              { s' with
                cache_ := aset (aerase s'.cache_ jv) j (w, 1),
                buckets := addToBucketHead s'.buckets 1 j,
                min_frequency_ := 1 } := by
            simp [lfuPut, hcap0, hj, hfull, hev]
          by_cases hjvk : jv = k
          · exfalso
            have h2 : (lfuVal (lfuPut s j w) k).isSome := hps
            rw [hstate] at h2
            have h3 : ((alook (aset (aerase s'.cache_ jv) j (w, 1))
                k).map Prod.fst).isSome := h2
            rw [alook_aset_ne _ hkj, hsc, hjvk, alook_aerase_self hnd]
              at h3
            simp at h3
          · rw [hstate]
            show (alook (aset (aerase s'.cache_ jv) j (w, 1)) k).map
              Prod.fst = some v
            rw [alook_aset_ne _ hkj, hsc,
              alook_aerase_ne (fun he => hjvk he.symm), hk0]
            rfl
      · have hstate : lfuPut s j w =
            { s with cache_ := aset s.cache_ j (w, 1),
                     buckets := addToBucketHead s.buckets 1 j,
                     min_frequency_ := 1 } := by
          simp [lfuPut, hcap0, hj, hfull]
        rw [hstate]
        show (alook (aset s.cache_ j (w, 1)) k).map Prod.fst = some v
        rw [alook_aset_ne _ hkj, hk0]
        rfl
    · obtain ⟨w0, f⟩ := wf
      have hstate : lfuPut s j w =
          lfuUpdateFrequency { s with cache_ := aset s.cache_ j (w, f) } j w
            f := by
        simp [lfuPut, hcap0, hj]
      rw [hstate]
      show (alook (lfuUpdateFrequency
          { s with cache_ := aset s.cache_ j (w, f) } j w f).cache_ k).map
        Prod.fst = some v
      rw [lfuUpdateFrequency_cache]
      show (alook (aset (aset s.cache_ j (w, f)) j (w, f + 1)) k).map
        Prod.fst = some v
      rw [alook_aset_ne _ hkj, alook_aset_ne _ hkj, hk0]
      rfl
  | contains j => exact hv
  | clear =>
    exfalso
    have h2 : ((alook ([] : List (K × V × Nat)) k).map Prod.fst).isSome :=
      hps
    simp [alook] at h2

theorem lfuVal_run {K V : Type} [DecidableEq K] {s : LfuSt K V}
    (hInv : LfuInv s) {k : K} {v : V} (hv : lfuVal s k = some v)
    {ops : List (Op K V)} (hsafe : LfuSafe k s ops) :
    lfuVal (lfuRun s ops) k = some v := by
  induction ops generalizing s with
  | nil => exact hv
  | cons op t ih =>
    obtain ⟨hpres, hnp, hrest⟩ := hsafe
    exact ih (lfuInv_step hInv op) (lfuVal_preserve hInv hv hpres hnp) hrest

theorem lrukVal_preserve {K V : Type} [DecidableEq K] {s : LruKSt K V}
    (hInv : LruKInv s) {k : K} {v : V} (hv : lrukVal s k = some v)
    {op : Op K V}
    (hpres : (lrukVal s k).isSome → (lrukVal (lrukStep s op) k).isSome)
    (hnp : isPutOn k op = false) :
    lrukVal (lrukStep s op) k = some v := by
  obtain ⟨hcap, hkpos, hhnd, hcnd⟩ := hInv
  have hps : (lrukVal (lrukStep s op) k).isSome := hpres (by rw [hv]; rfl)
  rcases hk0 : alook s.cache_ k with _ | r
  · rw [show lrukVal s k = (alook s.cache_ k).map CacheRec.value from rfl,
      hk0] at hv
    simp at hv
  have hrval : r.value = v := by
    rw [show lrukVal s k = (alook s.cache_ k).map CacheRec.value from rfl,
      hk0] at hv
    simpa using hv
  cases op with
  | get j =>
    show lrukVal (lrukGet s j).2 k = some v
    rcases hj : alook s.cache_ j with _ | r2
    · simp only [lrukGet, hj]
      exact hv
    · have hstate : (lrukGet s j).2 =
          { s with cache_ := aset s.cache_ j (recTouch s.k_ s.clock r2),
                   clock := s.clock + 1 } := by
        simp [lrukGet, hj]
      rw [hstate]
      show (alook (aset s.cache_ j (recTouch s.k_ s.clock r2)) k).map
        CacheRec.value = some v
      by_cases hkj : k = j
      · rw [← hkj] at hj
        rw [hk0] at hj
        injection hj with he
        rw [← hkj, alook_aset_self]
        show some (recTouch s.k_ s.clock r2).value = some v
        rw [show (recTouch s.k_ s.clock r2).value = r2.value from rfl,
          ← he, hrval]
      · rw [alook_aset_ne _ hkj, hk0]
        show some r.value = some v
        rw [hrval]
  | put j w =>
    have hkj : k ≠ j := by
      simp [isPutOn] at hnp
      exact fun he => hnp he.symm
    show lrukVal (lrukPut s j w) k = some v
    rcases hj : alook s.cache_ j with _ | r2
    · have hsc := lrukRecordHistory_cache s j
      rcases hh1 : alook (lrukRecordHistory s j).history_ j with _ | ts1
      · have hstate : lrukPut s j w = lrukRecordHistory s j := by
          simp [lrukPut, hj, hh1]
        rw [hstate]
        show (alook (lrukRecordHistory s j).cache_ k).map CacheRec.value
          = some v
        rw [hsc, hk0]
        show some r.value = some v
        rw [hrval]
      · by_cases hlen : (lrukRecordHistory s j).k_ ≤ ts1.length
        · by_cases hfull : (lrukRecordHistory s j).capacity_ ≤
              (lrukRecordHistory s j).cache_.length
          · rcases hvv : lrukFindVictim (lrukRecordHistory s j) with _ | jv
            · have hstate : lrukPut s j w = lrukRecordHistory s j := by
                simp [lrukPut, hj, hh1, hlen, hfull, hvv]
              rw [hstate]
              show (alook (lrukRecordHistory s j).cache_ k).map
                CacheRec.value = some v
              rw [hsc, hk0]
              show some r.value = some v
              rw [hrval]
            · by_cases hjc :
                  (alook (lrukRecordHistory s j).cache_ jv).isSome = true
              · have hstate : lrukPut s j w =
                    lrukPromote
                      { lrukRecordHistory s j with
                        cache_ :=
                          aerase (lrukRecordHistory s j).cache_ jv } j w := by
                  simp [lrukPut, hj, hh1, hlen, hfull, hvv, hjc]
                have hstate2 : lrukPromote
                    { lrukRecordHistory s j with
                      cache_ := aerase (lrukRecordHistory s j).cache_ jv }
                    j w =
                    { lrukRecordHistory s j with
                      cache_ :=
                        aset (aerase (lrukRecordHistory s j).cache_ jv) j
                          ⟨w, ts1⟩,
                      history_ :=
                        aerase (lrukRecordHistory s j).history_ j } := by
                  simp [lrukPromote, hh1]
                by_cases hjvk : jv = k
                · exfalso
                  have h2 : (lrukVal (lrukPut s j w) k).isSome := hps
                  rw [hstate, hstate2] at h2
                  have h3 : ((alook
                      (aset (aerase (lrukRecordHistory s j).cache_ jv) j
                        ⟨w, ts1⟩) k).map CacheRec.value).isSome := h2
                  rw [alook_aset_ne _ hkj, hsc, hjvk,
                    alook_aerase_self hcnd] at h3
                  simp at h3
                · rw [hstate, hstate2]
                  show (alook
                      (aset (aerase (lrukRecordHistory s j).cache_ jv) j
                        ⟨w, ts1⟩) k).map CacheRec.value = some v
                  rw [alook_aset_ne _ hkj, hsc,
                    alook_aerase_ne (fun he => hjvk he.symm), hk0]
                  show some r.value = some v
                  rw [hrval]
              · have hstate : lrukPut s j w =
                    lrukPromote
                      { lrukRecordHistory s j with
                        history_ :=
                          aerase (lrukRecordHistory s j).history_ jv } j
                      w := by
                  simp [lrukPut, hj, hh1, hlen, hfull, hvv, hjc]
                rw [hstate]
                rcases hh2 : alook
                    (aerase (lrukRecordHistory s j).history_ jv) j
                    with _ | ts2
                · have hstate2 : lrukPromote
                      { lrukRecordHistory s j with
                        history_ :=
                          aerase (lrukRecordHistory s j).history_ jv } j w =
                      { lrukRecordHistory s j with
                        history_ :=
                          aerase (lrukRecordHistory s j).history_ jv } := by
                    simp [lrukPromote, hh2]
                  rw [hstate2]
                  show (alook (lrukRecordHistory s j).cache_ k).map
                    CacheRec.value = some v
                  rw [hsc, hk0]
                  show some r.value = some v
                  rw [hrval]
                · have hstate2 : lrukPromote
                      { lrukRecordHistory s j with
                        history_ :=
                          aerase (lrukRecordHistory s j).history_ jv } j w =
                      { lrukRecordHistory s j with
                        cache_ :=
                          aset (lrukRecordHistory s j).cache_ j ⟨w, ts2⟩,
                        history_ :=
                          aerase
                            (aerase (lrukRecordHistory s j).history_ jv)
                            j } := by
                    simp [lrukPromote, hh2]
                  rw [hstate2]
                  show (alook (aset (lrukRecordHistory s j).cache_ j
                      ⟨w, ts2⟩) k).map CacheRec.value = some v
                  rw [alook_aset_ne _ hkj, hsc, hk0]
                  show some r.value = some v
                  rw [hrval]
          · have hstate : lrukPut s j w =
                lrukPromote (lrukRecordHistory s j) j w := by
              simp [lrukPut, hj, hh1, hlen, hfull]
            have hstate2 : lrukPromote (lrukRecordHistory s j) j w =
                { lrukRecordHistory s j with
                  cache_ :=
                    aset (lrukRecordHistory s j).cache_ j ⟨w, ts1⟩,
                  history_ :=
                    aerase (lrukRecordHistory s j).history_ j } := by
              simp [lrukPromote, hh1]
            rw [hstate, hstate2]
            show (alook (aset (lrukRecordHistory s j).cache_ j ⟨w, ts1⟩)
                k).map CacheRec.value = some v
            rw [alook_aset_ne _ hkj, hsc, hk0]
            show some r.value = some v
            rw [hrval]
        · have hstate : lrukPut s j w = lrukRecordHistory s j := by
            simp [lrukPut, hj, hh1, hlen]
          rw [hstate]
          show (alook (lrukRecordHistory s j).cache_ k).map CacheRec.value
            = some v
          rw [hsc, hk0]
          show some r.value = some v
          rw [hrval]
    · have hstate : lrukPut s j w =
          { s with
            cache_ := aset s.cache_ j
              (recTouch s.k_ s.clock { r2 with value := w }),
            clock := s.clock + 1 } := by
        simp [lrukPut, hj]
      rw [hstate]
      show (alook (aset s.cache_ j
          (recTouch s.k_ s.clock { r2 with value := w })) k).map
        CacheRec.value = some v
      rw [alook_aset_ne _ hkj, hk0]
      show some r.value = some v
      rw [hrval]
  | contains j => exact hv
  | clear =>
    exfalso
    have h2 : ((alook ([] : List (K × CacheRec V)) k).map
        CacheRec.value).isSome := hps
    simp [alook] at h2

theorem lrukVal_run {K V : Type} [DecidableEq K] {s : LruKSt K V}
    (hInv : LruKInv s) {k : K} {v : V} (hv : lrukVal s k = some v)
    {ops : List (Op K V)} (hsafe : LruKSafe k s ops) :
    lrukVal (lrukRun s ops) k = some v := by
  induction ops generalizing s with
  | nil => exact hv
  | cons op t ih =>
    obtain ⟨hpres, hnp, hrest⟩ := hsafe
    exact ih (lruKInv_step hInv op) (lrukVal_preserve hInv hv hpres hnp) hrest

theorem alook_cons_none {K V : Type} [DecidableEq K] {k k0 : K} {w0 : V}
    {t : List (K × V)} (h : alook ((k0, w0) :: t) k = none) :
    alook t k = none := by
  by_cases hk : k = k0
  · simp [alook, hk] at h
  · simp [alook, hk] at h
    exact h

theorem lruPut_val {K V : Type} [DecidableEq K] (s : LruSt K V) (k : K)
    (v : V) : lruVal (lruPut s k v) k = some v := by
  rcases hk : alook s.order k with _ | v0
  · by_cases hfull : s.capacity_ ≤ s.size_ <;>
      simp [lruVal, lruPut, hk, hfull, alook_cons_self]
  · simp [lruVal, lruPut, hk, alook_cons_self]

theorem fifoPut_val {K V : Type} [DecidableEq K] (s : FifoSt K V) (k : K)
    (v : V) : fifoVal (fifoPut s k v) k = some v := by
  rcases hk : alook s.order k with _ | v0
  · by_cases hfull : s.capacity_ ≤ s.size_
    · rcases horder : s.order with _ | ⟨p, t2⟩
      · simp [fifoVal, fifoPut, horder ▸ hk, hfull, horder, alook_cons_self]
      · obtain ⟨k0, w0⟩ := p
        have hk2 : alook ((k0, w0) :: t2) k = none := by
          rw [← horder]
          exact hk
        have hstate : fifoPut s k v =
            { s with order := t2 ++ [(k, v)],
                     size_ := s.size_ - 1 + 1 } := by
          simp [fifoPut, horder, hk2, hfull]
        show alook (fifoPut s k v).order k = some v
        rw [hstate]
        show alook (t2 ++ [(k, v)]) k = some v
        rw [alook_append, alook_cons_none hk2]
        simp [alook]
    · have hstate : fifoPut s k v =
          { s with order := s.order ++ [(k, v)],
                   size_ := s.size_ + 1 } := by
        simp [fifoPut, hk, hfull]
      show alook (fifoPut s k v).order k = some v
      rw [hstate]
      show alook (s.order ++ [(k, v)]) k = some v
      rw [alook_append, hk]
      simp [alook]
  · have hstate : fifoPut s k v = { s with order := aset s.order k v } := by
      simp [fifoPut, hk]
    show alook (fifoPut s k v).order k = some v
    rw [hstate]
    exact alook_aset_self _ _ _

theorem lfuPut_val {K V : Type} [DecidableEq K] (s : LfuSt K V) (k : K)
    (v : V) (hcap0 : ¬ s.capacity_ = 0) :
    lfuVal (lfuPut s k v) k = some v := by
  rcases hk : alook s.cache_ k with _ | vf
  · by_cases hfull : s.capacity_ ≤ s.cache_.length
    · rcases hev : lfuEvictLFU s with ⟨jopt, s2⟩
      rcases jopt with _ | jv
      · have hstate : lfuPut s k v =
            { s2 with cache_ := aset s2.cache_ k (v, 1),
                      buckets := addToBucketHead s2.buckets 1 k,
                      min_frequency_ := 1 } := by
          simp [lfuPut, hcap0, hk, hfull, hev]
        rw [hstate]
        show (alook (aset s2.cache_ k (v, 1)) k).map Prod.fst = some v
        rw [alook_aset_self]
        rfl
      · have hstate : lfuPut s k v =
            { s2 with cache_ := aset (aerase s2.cache_ jv) k (v, 1),
                      buckets := addToBucketHead s2.buckets 1 k,
                      min_frequency_ := 1 } := by
          simp [lfuPut, hcap0, hk, hfull, hev]
        rw [hstate]
        show (alook (aset (aerase s2.cache_ jv) k (v, 1)) k).map Prod.fst
          = some v
        rw [alook_aset_self]
        rfl
    · have hstate : lfuPut s k v =
          { s with cache_ := aset s.cache_ k (v, 1),
                   buckets := addToBucketHead s.buckets 1 k,
                   min_frequency_ := 1 } := by
        simp [lfuPut, hcap0, hk, hfull]
      rw [hstate]
      show (alook (aset s.cache_ k (v, 1)) k).map Prod.fst = some v
      rw [alook_aset_self]
      rfl
  · obtain ⟨v0, f⟩ := vf
    have hstate : lfuPut s k v =
        lfuUpdateFrequency { s with cache_ := aset s.cache_ k (v, f) } k v
          f := by
      simp [lfuPut, hcap0, hk]
    rw [hstate]
    show (alook (lfuUpdateFrequency
        { s with cache_ := aset s.cache_ k (v, f) } k v f).cache_ k).map
      Prod.fst = some v
    rw [lfuUpdateFrequency_cache]
    show (alook (aset (aset s.cache_ k (v, f)) k (v, f + 1)) k).map
      Prod.fst = some v
    rw [alook_aset_self]
    rfl

theorem lrukPut_val {K V : Type} [DecidableEq K] {s : LruKSt K V} {k : K}
    {v : V} (hsome : (lrukVal (lrukPut s k v) k).isSome) :
    lrukVal (lrukPut s k v) k = some v := by
  rcases hk : alook s.cache_ k with _ | r
  · rcases hh1 : alook (lrukRecordHistory s k).history_ k with _ | ts1
    · exfalso
      have hstate : lrukPut s k v = lrukRecordHistory s k := by
        simp [lrukPut, hk, hh1]
      rw [hstate] at hsome
      have h2 : ((alook (lrukRecordHistory s k).cache_ k).map
          CacheRec.value).isSome := hsome
      rw [lrukRecordHistory_cache, hk] at h2
      simp at h2
    · by_cases hlen : (lrukRecordHistory s k).k_ ≤ ts1.length
      · have hprom : ∀ s2 : LruKSt K V, alook s2.history_ k = some ts1 →
            lrukVal (lrukPromote s2 k v) k = some v := by
          intro s2 hh2
          have hstate2 : lrukPromote s2 k v =
              { s2 with cache_ := aset s2.cache_ k ⟨v, ts1⟩,
                        history_ := aerase s2.history_ k } := by
            simp [lrukPromote, hh2]
          rw [hstate2]
          show (alook (aset s2.cache_ k ⟨v, ts1⟩) k).map CacheRec.value
            = some v
          rw [alook_aset_self]
          rfl
        by_cases hfull : (lrukRecordHistory s k).capacity_ ≤
            (lrukRecordHistory s k).cache_.length
        · rcases hvv : lrukFindVictim (lrukRecordHistory s k) with _ | jv
          · exfalso
            have hstate : lrukPut s k v = lrukRecordHistory s k := by
              simp [lrukPut, hk, hh1, hlen, hfull, hvv]
            rw [hstate] at hsome
            have h2 : ((alook (lrukRecordHistory s k).cache_ k).map
                CacheRec.value).isSome := hsome
            rw [lrukRecordHistory_cache, hk] at h2
            simp at h2
          · by_cases hjc :
                (alook (lrukRecordHistory s k).cache_ jv).isSome = true
            · have hstate : lrukPut s k v =
                  lrukPromote
                    { lrukRecordHistory s k with
                      cache_ :=
                        aerase (lrukRecordHistory s k).cache_ jv } k v := by
                simp [lrukPut, hk, hh1, hlen, hfull, hvv, hjc]
              rw [hstate]
              exact hprom _ hh1
            · have hstate : lrukPut s k v =
                  lrukPromote
                    { lrukRecordHistory s k with
                      history_ :=
                        aerase (lrukRecordHistory s k).history_ jv } k
                    v := by
                simp [lrukPut, hk, hh1, hlen, hfull, hvv, hjc]
              rw [hstate] at hsome ⊢
              rcases hh2 : alook
                  (aerase (lrukRecordHistory s k).history_ jv) k
                  with _ | ts2
              · exfalso
                have hstate2 : lrukPromote
                    { lrukRecordHistory s k with
                      history_ :=
                        aerase (lrukRecordHistory s k).history_ jv } k v =
                    { lrukRecordHistory s k with
                      history_ :=
                        aerase (lrukRecordHistory s k).history_ jv } := by
                  simp [lrukPromote, hh2]
                rw [hstate2] at hsome
                have h2 : ((alook (lrukRecordHistory s k).cache_ k).map
                    CacheRec.value).isSome := hsome
                rw [lrukRecordHistory_cache, hk] at h2
                simp at h2
              · have hstate2 : lrukPromote
                    { lrukRecordHistory s k with
                      history_ :=
                        aerase (lrukRecordHistory s k).history_ jv } k v =
                    { lrukRecordHistory s k with
                      cache_ :=
                        aset (lrukRecordHistory s k).cache_ k ⟨v, ts2⟩,
                      history_ :=
                        aerase
                          (aerase (lrukRecordHistory s k).history_ jv)
                          k } := by
                  simp [lrukPromote, hh2]
                rw [hstate2]
                show (alook (aset (lrukRecordHistory s k).cache_ k
                    ⟨v, ts2⟩) k).map CacheRec.value = some v
                rw [alook_aset_self]
                rfl
        · have hstate : lrukPut s k v =
              lrukPromote (lrukRecordHistory s k) k v := by
            simp [lrukPut, hk, hh1, hlen, hfull]
          rw [hstate]
          exact hprom _ hh1
      · exfalso
        have hstate : lrukPut s k v = lrukRecordHistory s k := by
          simp [lrukPut, hk, hh1, hlen]
        rw [hstate] at hsome
        have h2 : ((alook (lrukRecordHistory s k).cache_ k).map
            CacheRec.value).isSome := hsome
        rw [lrukRecordHistory_cache, hk] at h2
        simp at h2
  · have hstate : lrukPut s k v =
        { s with
          cache_ := aset s.cache_ k
            (recTouch s.k_ s.clock { r with value := v }),
          clock := s.clock + 1 } := by
      simp [lrukPut, hk]
    rw [hstate]
    show (alook (aset s.cache_ k
        (recTouch s.k_ s.clock { r with value := v })) k).map
      CacheRec.value = some v
    rw [alook_aset_self]
    rfl

theorem lruGet_of_val {K V : Type} [DecidableEq K] {s : LruSt K V} {k : K}
    {v : V} (h : lruVal s k = some v) : (lruGet s k).1 = some v := by
  have h2 : alook s.order k = some v := h
  simp [lruGet, h2]

theorem fifoGet_of_val {K V : Type} [DecidableEq K] {s : FifoSt K V} {k : K}
    {v : V} (h : fifoVal s k = some v) : (fifoGet s k).1 = some v := h

theorem lfuGet_of_val {K V : Type} [DecidableEq K] {s : LfuSt K V} {k : K}
    {v : V} (h : lfuVal s k = some v) : (lfuGet s k).1 = some v := by
  rcases hk : alook s.cache_ k with _ | vf
  · rw [show lfuVal s k = (alook s.cache_ k).map Prod.fst from rfl, hk] at h
    simp at h
  · obtain ⟨v0, f⟩ := vf
    rw [show lfuVal s k = (alook s.cache_ k).map Prod.fst from rfl, hk] at h
    simp at h
    simp [lfuGet, hk, h]

theorem lrukGet_of_val {K V : Type} [DecidableEq K] {s : LruKSt K V} {k : K}
    {v : V} (h : lrukVal s k = some v) : (lrukGet s k).1 = some v := by
  rcases hk : alook s.cache_ k with _ | r
  · rw [show lrukVal s k = (alook s.cache_ k).map CacheRec.value from rfl,
      hk] at h
    simp at h
  · rw [show lrukVal s k = (alook s.cache_ k).map CacheRec.value from rfl,
      hk] at h
    simp at h
    simp [lrukGet, hk, h]

/-- C8 (amended): on the LRU, FIFO and LFU engines, after `put k v`, as long
as no subsequent operation evicts k and no subsequent operation is a put on
k, `get k` returns v.  On the LRU-K engine the same holds only when the put
leaves k visible (promoted): a first-time put with K ≥ 2 stores no value and
`get k` fails even though nothing evicted k (see the counterexample). -/
theorem spec_C8_amended {K V : Type} [DecidableEq K] (c kk : Nat)
    (hc : 0 < c) (hkk : 0 < kk) (ops0 : List (Op K V)) (k : K) (v : V)
    (tr : List (Op K V)) :
    (LruSafe k (lruPut (lruRun (lruInit c) ops0) k v) tr →
      lruVal (lruRun (lruPut (lruRun (lruInit c) ops0) k v) tr) k
        = some v ∧
      (lruGet (lruRun (lruPut (lruRun (lruInit c) ops0) k v) tr) k).1
        = some v) ∧
    (FifoSafe k (fifoPut (fifoRun (fifoInit c) ops0) k v) tr →
      fifoVal (fifoRun (fifoPut (fifoRun (fifoInit c) ops0) k v) tr) k
        = some v ∧
      (fifoGet (fifoRun (fifoPut (fifoRun (fifoInit c) ops0) k v) tr) k).1
        = some v) ∧
    (LfuSafe k (lfuPut (lfuRun (lfuInit c) ops0) k v) tr →
      lfuVal (lfuRun (lfuPut (lfuRun (lfuInit c) ops0) k v) tr) k
        = some v ∧
      (lfuGet (lfuRun (lfuPut (lfuRun (lfuInit c) ops0) k v) tr) k).1
        = some v) ∧
    ((lrukVal (lrukPut (lrukRun (lrukInit c kk) ops0) k v) k).isSome →
      LruKSafe k (lrukPut (lrukRun (lrukInit c kk) ops0) k v) tr →
      lrukVal (lrukRun (lrukPut (lrukRun (lrukInit c kk) ops0) k v) tr) k
        = some v ∧
      (lrukGet (lrukRun (lrukPut (lrukRun (lrukInit c kk) ops0) k v) tr)
        k).1 = some v) := by
  refine ⟨?_, ?_, ?_, ?_⟩
  · intro hsafe
    have hInv0 := lruInv_run (lruInv_init hc) ops0
    have hInv1 : LruInv (lruPut (lruRun (lruInit c) ops0) k v) :=
      lruInv_step hInv0 (Op.put k v)
    have hval := lruPut_val (lruRun (lruInit c) ops0) k v
    have hfin := lruVal_run hInv1 hval hsafe
    exact ⟨hfin, lruGet_of_val hfin⟩
  · intro hsafe
    have hInv0 := fifoInv_run (fifoInv_init hc) ops0
    have hInv1 : FifoInv (fifoPut (fifoRun (fifoInit c) ops0) k v) :=
      fifoInv_step hInv0 (Op.put k v)
    have hval := fifoPut_val (fifoRun (fifoInit c) ops0) k v
    have hfin := fifoVal_run hInv1 hval hsafe
    exact ⟨hfin, fifoGet_of_val hfin⟩
  · intro hsafe
    have hInv0 := lfuInv_run (lfuInv_init hc) ops0
    have hInv1 : LfuInv (lfuPut (lfuRun (lfuInit c) ops0) k v) :=
      lfuInv_step hInv0 (Op.put k v)
    have hval := lfuPut_val (lfuRun (lfuInit c) ops0) k v
      (by have := hInv0.1; omega)
    have hfin := lfuVal_run hInv1 hval hsafe
    exact ⟨hfin, lfuGet_of_val hfin⟩
  · intro hsome hsafe
    have hInv0 := lruKInv_run (lruKInv_init hc hkk) ops0
    have hInv1 : LruKInv (lrukPut (lrukRun (lrukInit c kk) ops0) k v) :=
      lruKInv_step hInv0 (Op.put k v)
    have hval := lrukPut_val hsome
    have hfin := lrukVal_run hInv1 hval hsafe
    exact ⟨hfin, lrukGet_of_val hfin⟩

/-- C8 counterexample: on the LRU-K engine (capacity 1, K = 2), directly
after `put 1 "a"` — with no subsequent operation at all, so nothing evicted
key 1 — `get 1` fails with NotFound instead of returning "a". -/
theorem spec_C8_counterexample :
    (lrukGet (lrukPut (lrukInit 1 2 : LruKSt Nat String) 1 "a") 1).1
      = none := by
  decide

/-- Witness for C8 at concrete inputs. -/
theorem spec_C8_witness :
    (lruVal (lruRun (lruPut (lruRun (lruInit 1 : LruSt Nat Nat) []) 1 5) [])
        1 = some 5 ∧
      (lruGet (lruRun (lruPut (lruRun (lruInit 1 : LruSt Nat Nat) []) 1 5)
        []) 1).1 = some 5) ∧
    (lrukVal (lrukRun (lrukPut (lrukRun (lrukInit 1 1 : LruKSt Nat Nat) [])
        1 5) []) 1 = some 5 ∧
      (lrukGet (lrukRun (lrukPut (lrukRun (lrukInit 1 1 : LruKSt Nat Nat)
        []) 1 5) []) 1).1 = some 5) :=
  ⟨(spec_C8_amended (K := Nat) (V := Nat) 1 1 (by decide) (by decide) [] 1 5
      []).1 trivial,
   (spec_C8_amended (K := Nat) (V := Nat) 1 1 (by decide) (by decide) [] 1 5
      []).2.2.2 (by decide) trivial⟩
